import Mathlib

/-!
Verification of the rssettings configuration-file engine (src/lib.rs).

The embedding models Rust strings as lists of characters (`Str`).  All the
string operations used by the source (`trim`, `find`, `truncate`, `split_at`,
`replace`, `starts_with`, `ends_with`) act on ASCII tag characters, so the
byte-index operations of the source coincide with the character-level
operations modelled here.  File I/O is modelled by passing the file content
explicitly: a file is either an open error (carrying the OS error text) or a
list of line reads, each of which is either a line's text or a read error.
-/

/-- Rust `String` / `&str`, modelled as a list of characters. -/
abbrev Str := List Char

/-- Whitespace predicate backing Rust's `str::trim` (the inputs fed to `trim`
by this program are single lines, so the relevant characters are the ASCII
ones). -/
def rsIsWhitespace (c : Char) : Bool :=
  c = ' ' || c = '\t' || c = '\n' || c = '\r' || c = '\x0b' || c = '\x0c'

/-- Rust `str::trim_start`. -/
def trimStart (s : Str) : Str := s.dropWhile rsIsWhitespace

/-- Rust `str::trim_end`. -/
def trimEnd (s : Str) : Str := (s.reverse.dropWhile rsIsWhitespace).reverse

/-- Rust `str::trim`. -/
def trim (s : Str) : Str := trimEnd (trimStart s)

/-- Model of `find(COMMENT_TAG)` followed by `truncate(index)` in
`Settings::line_type`: everything from the first `#` on is dropped. -/
def truncAtComment : Str → Str
  | [] => []
  | c :: rest => if c = '#' then [] else c :: truncAtComment rest

/-- Model of `find(COMMENT_TAG)` followed by slicing `[index..]` in
`Settings::save`: the substring from the first `#` to the end of the line,
`none` when the line holds no `#`. -/
def commentFrom : Str → Option Str
  | [] => none
  | c :: rest => if c = '#' then some (c :: rest) else commentFrom rest

/-- Rust `str::starts_with` for a single-character pattern. -/
def startsWithC (c : Char) : Str → Bool
  | [] => false
  | a :: _ => a = c

/-- Rust `str::ends_with` for a single-character pattern. -/
def endsWithC (c : Char) (s : Str) : Bool := startsWithC c s.reverse

/-- Rust `find(ASSIGN_TAG)` followed by `split_at(assign_pos)`: splits at the
first `=`; the second component starts with that `=` (exactly as Rust's
`split_at` keeps the delimiter in the right half).  `none` when the line
holds no `=`. -/
def splitAtAssign : Str → Option (Str × Str)
  | [] => none
  | c :: rest =>
    if c = '=' then some ([], c :: rest)
    else match splitAtAssign rest with
      | some (k, v) => some (c :: k, v)
      | none => none

/-- Rust `format!("\x7b\x7d", n)` for a `usize`. -/
def natToStr (n : Nat) : Str := (Nat.repr n).data

/-- GLOBAL_SECTION constant of the crate. -/
def GLOBAL_SECTION : Str := "GLOBAL".data

/-- Whether the string begins with the two-character placeholder
`"\x7b\x7d"`. -/
def beginsPH : Str → Bool
  | c1 :: c2 :: _ => c1 = '{' && c2 = '}'
  | _ => false

/-- Whether the message still holds a placeholder
(`message.find("\x7b\x7d").is_some()`). -/
def hasPH : Str → Bool
  | [] => false
  | c :: rest => beginsPH (c :: rest) || hasPH rest

/-- Rust `message.replacen("\x7b\x7d", param, 1)`: replaces the first
placeholder occurrence. -/
def replacePH (p : Str) : Str → Str
  | [] => []
  | c :: rest =>
    if beginsPH (c :: rest) then p ++ rest.tail
    else c :: replacePH p rest

/-- Body of the `while` loop of `Settings::format_message`: as long as a
placeholder remains and a parameter is left, replace the first placeholder
with the next parameter. -/
def format_message_aux : Str → List Str → Str
  | message, [] => message
  | message, p :: ps =>
    if hasPH message then format_message_aux (replacePH p message) ps
    else message

/-- Settings::format_message, with the table lookup already done (the caller
passes the template).  The source indexes `params[i]` before checking `i`
against `params.len()`, so an empty parameter vector combined with a template
that still holds a placeholder panics; that panic is modelled by `none`. -/
def format_message (message : Str) (params : List Str) : Option Str :=
  if params = [] ∧ hasPH message then none
  else some (format_message_aux message params)

/-- Message-index constants of the source. -/
def OPENING_FILE_ERROR_MESSAGE_IDX : Nat := 0
def MISSING_START_SECTION_TAG_MESSAGE_IDX : Nat := 1
def MISSING_END_SECTION_TAG_MESSAGE_IDX : Nat := 2
def MISSING_ASSIGN_TAG_MESSAGE_IDX : Nat := 3
def MISSING_KEY_MESSAGE_IDX : Nat := 4
def DUPLICATED_KEY_MESSAGE_IDX : Nat := 5
def SECTION_NOT_FOUND_MESSAGE_IDX : Nat := 6
def KEY_NOT_FOUND_MESSAGE_IDX : Nat := 7
def PARSING_ERROR_MESSAGE_IDX : Nat := 8
def WRITING_FILE_ERROR_MESSAGE_IDX : Nat := 9
def READING_FILE_ERROR_MESSAGE_IDX : Nat := 10
def ALREADY_INITIALIZED_MESSAGE_IDX : Nat := 11

/-- Default english message table of the source. -/
def SETTINGS_MESSAGES : List Str := [
  "Error opening settings file: '{}': '{}'".data,
  "Missing start section tag '{}' at line '{}' of settings file: '{}'".data,
  "Missing end section tag '{}' at line '{}' of settings file: '{}'".data,
  "Missing assign tag '{}' at line '{}' of settings file: '{}'".data,
  "Missing key at line '{}' of settings file: '{}'".data,
  "Duplicated key '{}' at line '{}' previously defined at line '{}' of settings file: '{}'".data,
  "Section '{}' not found".data,
  "Section '{}' key '{}' not found".data,
  "Section '{}' key '{}', Parsing error: '{}'".data,
  "Error writing file: '{}': '{}'".data,
  "Error reading file: '{}' at line {}: '{}'".data,
  "Settings already initialized using file: '{}'".data
]

/-- Internal call sites of `format_message` always pass a non-empty parameter
vector, so the panic branch is unreachable there; this total variant is the
one the rest of the embedding uses (table lookup plus the loop). -/
def fmtIdx (msgs : List Str) (idx : Nat) (params : List Str) : Str :=
  format_message_aux (msgs.getD idx []) params

/-- Crate-private `KeyValuePair` struct: a key, its textual value, and the
1-based file line on which the pair was parsed. -/
structure KeyValuePair where
  key : Str
  value : Str
  line_cnt : Nat
deriving DecidableEq, Repr

/-- Crate-private `Section` struct. -/
structure Section where
  name : Str
  values : List KeyValuePair
deriving DecidableEq, Repr

/-- Linear scan of a section's entries for a key, as performed by
`Section::add`, `Section::get` and `Section::set`. -/
def findKV (key : Str) : List KeyValuePair → Option KeyValuePair
  | [] => none
  | e :: rest => if e.key = key then some e else findKV key rest

/-- Section::add - rejects a duplicate key, returning the line of the earlier
entry; otherwise pushes the new pair at the end. -/
def Section.add (sec : Section) (key value : Str) (line_cnt : Nat) :
    Except Nat Section :=
  match findKV key sec.values with
  | some e => .error e.line_cnt
  | none => .ok { sec with values := sec.values ++ [⟨key, value, line_cnt⟩] }

/-- Section::get - value of the first entry holding the key. -/
def Section.get (sec : Section) (key : Str) : Option Str :=
  (findKV key sec.values).map KeyValuePair.value

/-- In-place update of the first entry holding the key (`Section::set`
returning `true`); `none` when the key is absent (`false`). -/
def setKV (key value : Str) : List KeyValuePair → Option (List KeyValuePair)
  | [] => none
  | e :: rest =>
    if e.key = key then some ({ e with value := value } :: rest)
    else (setKV key value rest).map (e :: ·)

/-- Section::set. -/
def Section.set (sec : Section) (key value : Str) : Option Section :=
  (setKV key value sec.values).map (fun vs => { sec with values := vs })

/-- Section::unload. -/
def Section.unload (sec : Section) : Section := { sec with values := [] }

/-- SettingsValue struct returned by `Settings::get`; `error` is empty when
the lookup succeeded. -/
structure SettingsValue (α : Type) where
  value : α
  error : Str
deriving DecidableEq, Repr

/-- Crate-private `LineType` enumeration. -/
inductive LineType where
  | EmptyLine
  | SectionLine (name : Str)
  | KeyAndValue (key value : Str)
  | BadFormattedLine (error : Str)
deriving DecidableEq, Repr

/-- Settings struct.  `path` empty means "not loaded". -/
structure Settings where
  path : Str
  sections : List Section
  messages_table : List Str
deriving DecidableEq, Repr

/-- Settings::new. -/
def Settings.new : Settings := ⟨[], [], SETTINGS_MESSAGES⟩

/-- Settings::new_locale_messages. -/
def Settings.new_locale_messages (msgs : List Str) : Settings := ⟨[], [], msgs⟩

/-- Settings::is_initialize (named `is_initialized` here): the settings are
initialized once `path` is non-empty. -/
def Settings.is_initialized (s : Settings) : Bool := s.path.length != 0

/-- Settings::line_type.  The source method reads `self` only for the message
table, which is passed here directly. -/
def line_type (msgs : List Str) (line_text : Str) (line_cnt : Nat)
    (settings_file : Str) : LineType :=
  let t := trim (truncAtComment line_text)
  if t.length = 0 then .EmptyLine
  else
    let sw := startsWithC '[' t
    let ew := endsWithC ']' t
    if sw && ew then
      let section_name := (t.drop 1).dropLast
      .SectionLine (if section_name.length = 0 then GLOBAL_SECTION else section_name)
    else if sw && !ew then
      .BadFormattedLine (fmtIdx msgs MISSING_END_SECTION_TAG_MESSAGE_IDX
        ["]".data, natToStr line_cnt, settings_file])
    else if !sw && ew then
      .BadFormattedLine (fmtIdx msgs MISSING_START_SECTION_TAG_MESSAGE_IDX
        ["[".data, natToStr line_cnt, settings_file])
    else
      match splitAtAssign t with
      | some (k, v) =>
        let key := trim k
        let value := trim (v.filter (fun c => c != '='))
        if key.length = 0 then
          .BadFormattedLine (fmtIdx msgs MISSING_KEY_MESSAGE_IDX
            [natToStr line_cnt, settings_file])
        else .KeyAndValue key value
      | none =>
        .BadFormattedLine (fmtIdx msgs MISSING_ASSIGN_TAG_MESSAGE_IDX
          ["=".data, natToStr line_cnt, settings_file])

/-- Settings::add_to_section, acting on the sections list: the first section
whose name matches receives the pair (or reports the duplicate); when none
matches, a fresh section holding the pair is pushed at the end. -/
def addToSections (msgs : List Str) (settings_file : Str) (section_name key value : Str)
    (line_cnt : Nat) : List Section → Except Str (List Section)
  | [] => .ok [⟨section_name, [⟨key, value, line_cnt⟩]⟩]
  | sec :: rest =>
    if sec.name = section_name then
      match sec.add key value line_cnt with
      | .error previous_line =>
        .error (fmtIdx msgs DUPLICATED_KEY_MESSAGE_IDX
          [key, natToStr line_cnt, natToStr previous_line, settings_file])
      | .ok sec' => .ok (sec' :: rest)
    else (addToSections msgs settings_file section_name key value line_cnt rest).map (sec :: ·)

/-- Loop state of `Settings::load_private`: the sections built so far and the
name of the current section. -/
structure LoadState where
  sections : List Section
  current_section : Str
deriving DecidableEq, Repr

/-- One iteration of the line loop of `Settings::load_private`.  A line read
is either a line's text or an I/O read error. -/
def loadStep (msgs : List Str) (settings_file : Str) (st : LoadState) (line_cnt : Nat)
    (line : Except Str Str) : Except Str LoadState :=
  match line with
  | .error ioerror =>
    .error (fmtIdx msgs READING_FILE_ERROR_MESSAGE_IDX
      [settings_file, natToStr line_cnt, ioerror])
  | .ok line_text =>
    match line_type msgs line_text line_cnt settings_file with
    | .SectionLine section_name => .ok ⟨st.sections, section_name⟩
    | .KeyAndValue key value =>
      (addToSections msgs settings_file st.current_section key value line_cnt
        st.sections).map (⟨·, st.current_section⟩)
    | .BadFormattedLine error => .error error
    | .EmptyLine => .ok st

/-- The line loop of `Settings::load_private`, with 1-based line counting. -/
def loadLinesAux (msgs : List Str) (settings_file : Str) :
    List (Except Str Str) → Nat → LoadState → Except Str LoadState
  | [], _, st => .ok st
  | l :: ls, line_cnt, st =>
    match loadStep msgs settings_file st line_cnt l with
    | .error e => .error e
    | .ok st' => loadLinesAux msgs settings_file ls (line_cnt + 1) st'

/-- A file handed to `load`/`save`: an open failure carrying the OS error
text, or the list of line reads. -/
abbrev FileData := Except Str (List (Except Str Str))

/-- Settings::load_private.  On success the path is recorded; every failure
is reported without recording the path. -/
def load_private (s : Settings) (file : FileData) (path : Str) :
    Except Str Settings :=
  match file with
  | .error ioerror =>
    .error (fmtIdx s.messages_table OPENING_FILE_ERROR_MESSAGE_IDX [path, ioerror])
  | .ok lns =>
    match loadLinesAux s.messages_table path lns 1 ⟨s.sections, GLOBAL_SECTION⟩ with
    | .error e => .error e
    | .ok st => .ok { s with sections := st.sections, path := path }

/-- Settings::unload: clears every section and the section list (the path is
not touched). -/
def Settings.unload (s : Settings) : Settings := { s with sections := [] }

/-- Settings::load.  Returns the settings as left by the call together with
the result (the source method mutates `self` and returns the result). -/
def Settings.load (s : Settings) (file : FileData) (path : Str) :
    Settings × Except Str Unit :=
  if s.is_initialized then
    (s, .error (fmtIdx s.messages_table ALREADY_INITIALIZED_MESSAGE_IDX [s.path]))
  else
    match load_private s file path with
    | .ok s' => (s', .ok ())
    | .error e => (s.unload, .error e)

/-- Outcome of `Settings::save`.  The source returns `Ok(())` both when the
settings are not initialized (nothing is written) and after a successful
write; the model keeps the two apart so the written content is observable.
An out-of-range `source_line` panics in the source (unchecked indexing); the
model records that as `panicked`. -/
inductive SaveOutcome where
  | notLoaded
  | panicked
  | ioerr (e : Str)
  | written (lines : List Str)
deriving DecidableEq, Repr

/-- The reread loop of `Settings::save`: collects the lines of the original
file, reporting the first read error with its 1-based line number. -/
def readAll (msgs : List Str) (path : Str) :
    List (Except Str Str) → Nat → Except Str (List Str)
  | [], _ => .ok []
  | .ok l :: ls, line_cnt => (readAll msgs path ls (line_cnt + 1)).map (l :: ·)
  | .error ioerror :: _, line_cnt =>
    .error (fmtIdx msgs READING_FILE_ERROR_MESSAGE_IDX
      [path, natToStr line_cnt, ioerror])

/-- The line rewrite of `Settings::save` for one entry: when the original
line holds a comment marker the text from the marker on is kept, and the line
becomes `key = value comment` (single spaces); otherwise `key = value`. -/
def patchLine (e : KeyValuePair) (orig : Str) : Str :=
  match commentFrom orig with
  | some comment => e.key ++ [' ', '=', ' '] ++ e.value ++ [' '] ++ comment
  | none => e.key ++ [' ', '=', ' '] ++ e.value

/-- One step of the patch loop: `line_texts[e.line_cnt - 1]` is rewritten.
The source subtracts 1 from a `usize` and indexes without a bounds check, so
`line_cnt = 0` (overflow) and `line_cnt - 1 ≥ length` (out of range) both
panic; the model returns `none` there. -/
def applyEntry (buf : List Str) (e : KeyValuePair) : Option (List Str) :=
  if e.line_cnt = 0 then none
  else if e.line_cnt - 1 < buf.length then
    some (buf.set (e.line_cnt - 1) (patchLine e (buf.getD (e.line_cnt - 1) [])))
  else none

/-- The nested iteration of `Settings::save` over every entry of every
section, patching the reread line buffer. -/
def patchAll (buf : List Str) : List KeyValuePair → Option (List Str)
  | [] => some buf
  | e :: es =>
    match applyEntry buf e with
    | none => none
    | some buf' => patchAll buf' es

/-- All entries of all sections, in the order `save` iterates them. -/
def entriesOf (sections : List Section) : List KeyValuePair :=
  (sections.map Section.values).flatten

/-- Settings::save.  Writing through `File::create` is modelled as always
succeeding (write failures are environment conditions outside the model);
`written` carries the lines the file ends up holding. -/
def Settings.save (s : Settings) (file : FileData) : SaveOutcome :=
  if s.is_initialized then
    match file with
    | .error ioerror =>
      .ioerr (fmtIdx s.messages_table OPENING_FILE_ERROR_MESSAGE_IDX [s.path, ioerror])
    | .ok lns =>
      match readAll s.messages_table s.path lns 1 with
      | .error e => .ioerr e
      | .ok line_texts =>
        match patchAll line_texts (entriesOf s.sections) with
        | none => .panicked
        | some line_texts' => .written line_texts'
  else .notLoaded

/-- Linear scan for the first section carrying a name, as performed by
`Settings::get_section` and `Settings::get_section_mut`. -/
def findSection (section_name : Str) : List Section → Option Section
  | [] => none
  | sec :: rest => if sec.name = section_name then some sec else findSection section_name rest

/-- Settings::get_section. -/
def Settings.get_section (s : Settings) (section_name : Str) : Option Section :=
  findSection section_name s.sections

/-- Settings::get.  The generic parameter `T: FromStr + Display` is shallowly
embedded as an explicit parse function; its error value is the debug-formatted
conversion failure the source interpolates into the message. -/
def Settings.get {α : Type} (s : Settings) (parse : Str → Except Str α)
    (section_name key : Str) (default_value : α) : SettingsValue α :=
  match s.get_section section_name with
  | some sec =>
    match sec.get key with
    | some v =>
      match parse v with
      | .ok parsed_value => ⟨parsed_value, []⟩
      | .error error =>
        ⟨default_value, fmtIdx s.messages_table PARSING_ERROR_MESSAGE_IDX
          [section_name, key, error]⟩
    | none =>
      ⟨default_value, fmtIdx s.messages_table KEY_NOT_FOUND_MESSAGE_IDX
        [section_name, key]⟩
  | none =>
    ⟨default_value, fmtIdx s.messages_table SECTION_NOT_FOUND_MESSAGE_IDX
      [section_name]⟩

/-- The `FromStr` impl of `String` never fails; this is the parse function
for string-typed `get`. -/
def strParse (v : Str) : Except Str Str := .ok v

/-- Update helper behind `Settings::set`: `get_section_mut` plus
`Section::set`.  Outer `none`: no section carries the name.  `some none`:
the section was found but the key is absent.  `some (some secs)`: updated. -/
def setInSections (section_name key value : Str) :
    List Section → Option (Option (List Section))
  | [] => none
  | sec :: rest =>
    if sec.name = section_name then
      match sec.set key value with
      | none => some none
      | some sec' => some (some (sec' :: rest))
    else (setInSections section_name key value rest).map (Option.map (sec :: ·))

/-- Settings::set.  The `T: Display` argument is embedded as the already
formatted text (`value.to_string()` of the source). -/
def Settings.set (s : Settings) (section_name key value : Str) :
    Settings × Except Str Unit :=
  match setInSections section_name key value s.sections with
  | none =>
    (s, .error (fmtIdx s.messages_table SECTION_NOT_FOUND_MESSAGE_IDX [section_name]))
  | some none =>
    (s, .error (fmtIdx s.messages_table KEY_NOT_FOUND_MESSAGE_IDX [section_name, key]))
  | some (some secs) => ({ s with sections := secs }, .ok ())

/-- Specification-side reading of the claim about the message formatter
(spec 4.6): the placeholders of the template are filled strictly left to
right with the parameters in order, and once the parameters run out the
remaining placeholders stay literal.  Stated over the template's characters:
the placeholders are the non-overlapping `\x7b\x7d` pairs read from the
left. -/
def fillLTR : Str → List Str → Str
  | message, [] => message
  | [], _ :: _ => []
  | [c], _ :: _ => [c]
  | c1 :: c2 :: rest, p :: ps =>
    if beginsPH (c1 :: c2 :: rest) then p ++ fillLTR rest ps
    else c1 :: fillLTR (c2 :: rest) (p :: ps)

/-- The key/value pairs a line list yields, each tagged with its 1-based line
number starting at `line_cnt`: the characterization, line by line, of the
entries a successful load inserts. -/
def kvEntries (msgs : List Str) (settings_file : Str) :
    List Str → Nat → List KeyValuePair
  | [], _ => []
  | l :: ls, line_cnt =>
    match line_type msgs l line_cnt settings_file with
    | .KeyAndValue k v => ⟨k, v, line_cnt⟩ :: kvEntries msgs settings_file ls (line_cnt + 1)
    | _ => kvEntries msgs settings_file ls (line_cnt + 1)

/-- Convenience constructor for witnesses: a file whose lines all read
successfully. -/
def okFile (ls : List String) : FileData := .ok (ls.map (fun l => .ok l.data))

/-- Decidable equality for `Except`, so witnesses can be checked by
`decide`. -/
instance {ε α : Type _} [DecidableEq ε] [DecidableEq α] : DecidableEq (Except ε α) :=
  fun a b =>
    match a, b with
    | .ok x, .ok y =>
      if h : x = y then isTrue (by rw [h]) else isFalse (fun hh => by cases hh; exact h rfl)
    | .error x, .error y =>
      if h : x = y then isTrue (by rw [h]) else isFalse (fun hh => by cases hh; exact h rfl)
    | .ok _, .error _ => isFalse (fun hh => by cases hh)
    | .error _, .ok _ => isFalse (fun hh => by cases hh)

/-- Shallow model of `str::parse::<bool>()` (the `FromStr` impl of `bool`
accepts exactly `true` and `false`), used by witnesses of the typed
accessors; the error value stands for the debug-formatted `ParseBoolError`. -/
def boolParse (v : Str) : Except Str Bool :=
  if v = "true".data then .ok true
  else if v = "false".data then .ok false
  else .error "ParseBoolError".data

/-- C5: a Settings instance whose load already succeeded rejects any further
load with the AlreadyInitialized diagnostic citing the existing path, and the
instance (path, sections, message table) is returned unchanged. -/
theorem C5_already_loaded_guard (s : Settings) (file : FileData) (path : Str)
    (h : s.is_initialized = true) :
    Settings.load s file path =
      (s, .error (fmtIdx s.messages_table ALREADY_INITIALIZED_MESSAGE_IDX [s.path])) := by
  simp [Settings.load, h]

/-- Witness for C5: a loaded instance with path `a.ini` refuses a second load
of a different file and is left intact. -/
theorem C5_witness :
    (Settings.mk "a.ini".data [] SETTINGS_MESSAGES).is_initialized = true ∧
    Settings.load (Settings.mk "a.ini".data [] SETTINGS_MESSAGES) (okFile ["x = 1"])
        "b.ini".data =
      (Settings.mk "a.ini".data [] SETTINGS_MESSAGES,
       .error "Settings already initialized using file: 'a.ini'".data) := by
  refine ⟨by decide, ?_⟩
  rw [C5_already_loaded_guard _ (okFile ["x = 1"]) _ (by decide)]
  decide

/-- C2: when a load on a not-yet-initialized instance fails (open error, read
error, malformed line or duplicate key - every failure that can pass the
initialization gate), the instance is rolled back to its pristine state:
sections cleared, path still unset, so it is again not initialized. -/
theorem C2_failed_load_rollback (s : Settings) (file : FileData) (path : Str)
    (h0 : s.is_initialized = false)
    (h1 : (Settings.load s file path).2 ≠ .ok ()) :
    (Settings.load s file path).1.sections = [] ∧
    (Settings.load s file path).1.path = [] ∧
    (Settings.load s file path).1.is_initialized = false := by
  have hpath : s.path = [] := by
    simpa [Settings.is_initialized] using h0
  cases hlp : load_private s file path with
  | ok s' =>
    exfalso
    apply h1
    simp [Settings.load, h0, hlp]
  | error e =>
    simp [Settings.load, h0, hlp, Settings.unload, Settings.is_initialized, hpath]

/-- Witness for C2: loading a file whose third line is malformed fails and
leaves the instance pristine. -/
theorem C2_witness :
    (Settings.new.load (okFile ["[A]", "k = 1", "oops"]) "f.ini".data).2 ≠ .ok () ∧
    (Settings.new.load (okFile ["[A]", "k = 1", "oops"]) "f.ini".data).1.sections = [] ∧
    (Settings.new.load (okFile ["[A]", "k = 1", "oops"]) "f.ini".data).1.path = [] ∧
    (Settings.new.load (okFile ["[A]", "k = 1", "oops"]) "f.ini".data).1.is_initialized = false := by
  refine ⟨by decide, ?_⟩
  exact C2_failed_load_rollback Settings.new (okFile ["[A]", "k = 1", "oops"]) "f.ini".data
    (by decide) (by decide)

/-- C6: the typed get returns the caller's default together with the
SectionNotFound, KeyNotFound or ParsingError diagnostic when the section is
absent, the key is absent, or the stored text does not parse; no failure is
raised (the result is always a plain `SettingsValue`). -/
theorem C6_get_default_on_error {α : Type} (s : Settings) (parse : Str → Except Str α)
    (section_name key : Str) (d : α) :
    (s.get_section section_name = none →
      Settings.get s parse section_name key d =
        ⟨d, fmtIdx s.messages_table SECTION_NOT_FOUND_MESSAGE_IDX [section_name]⟩) ∧
    (∀ sec, s.get_section section_name = some sec → sec.get key = none →
      Settings.get s parse section_name key d =
        ⟨d, fmtIdx s.messages_table KEY_NOT_FOUND_MESSAGE_IDX [section_name, key]⟩) ∧
    (∀ sec v e, s.get_section section_name = some sec → sec.get key = some v →
        parse v = .error e →
      Settings.get s parse section_name key d =
        ⟨d, fmtIdx s.messages_table PARSING_ERROR_MESSAGE_IDX [section_name, key, e]⟩) :=
  ⟨fun h => by simp [Settings.get, h],
   fun sec h1 h2 => by simp [Settings.get, h1, h2],
   fun sec v e h1 h2 h3 => by simp [Settings.get, h1, h2, h3]⟩

/-- Witness for C6 at the unparsable-value case: key `enabled` holds `ciao`,
requested as a boolean with default `true`; the default comes back together
with the parsing diagnostic. -/
theorem C6_witness :
    Settings.get (Settings.mk "p.ini".data
        [Section.mk "GENERAL".data [KeyValuePair.mk "enabled".data "ciao".data 2]]
        SETTINGS_MESSAGES) boolParse "GENERAL".data "enabled".data true =
      ⟨true, "Section 'GENERAL' key 'enabled', Parsing error: 'ParseBoolError'".data⟩ := by
  have h := (C6_get_default_on_error (Settings.mk "p.ini".data
      [Section.mk "GENERAL".data [KeyValuePair.mk "enabled".data "ciao".data 2]]
      SETTINGS_MESSAGES) boolParse "GENERAL".data "enabled".data true).2.2
    (Section.mk "GENERAL".data [KeyValuePair.mk "enabled".data "ciao".data 2])
    "ciao".data "ParseBoolError".data (by decide) (by decide) (by decide)
  exact h.trans (by decide)

/-- Rereading a file whose line reads all succeed yields exactly its lines. -/
theorem readAll_ok (msgs : List Str) (path : Str) (lines : List Str) :
    ∀ cnt, readAll msgs path (lines.map .ok) cnt = .ok lines := by
  induction lines with
  | nil => intro cnt; rfl
  | cons l ls ih => intro cnt; simp [readAll, ih (cnt + 1), Except.map]

/-- Facts extracted from one successful patch step: the entry's line number
is positive and in range, and the buffer keeps its length. -/
theorem applyEntry_some (buf : List Str) (e : KeyValuePair) (buf' : List Str)
    (h : applyEntry buf e = some buf') :
    e.line_cnt ≠ 0 ∧ e.line_cnt - 1 < buf.length ∧ buf'.length = buf.length := by
  unfold applyEntry at h
  split at h
  · exact absurd h (by simp)
  · split at h
    · rename_i h0 h1
      refine ⟨h0, h1, ?_⟩
      cases h
      simp
    · exact absurd h (by simp)

/-- A fully successful patch pass bounds every entry's source line by the
buffer length. -/
theorem patchAll_some_bounds (es : List KeyValuePair) :
    ∀ buf out, patchAll buf es = some out →
      ∀ e ∈ es, e.line_cnt ≠ 0 ∧ e.line_cnt ≤ buf.length := by
  induction es with
  | nil => intro buf out _ e he; cases he
  | cons e0 es ih =>
    intro buf out h e he
    unfold patchAll at h
    cases happ : applyEntry buf e0 with
    | none => rw [happ] at h; cases h
    | some buf' =>
      rw [happ] at h
      obtain ⟨hne, hlt, hlen⟩ := applyEntry_some buf e0 buf' happ
      rcases List.mem_cons.mp he with rfl | hmem
      · exact ⟨hne, by omega⟩
      · have := ih buf' out h e hmem
        omega

/-- When some entry's source line exceeds the buffer length the patch pass
hits the unchecked index and aborts (panic, modelled as `none`). -/
theorem patchAll_none_of_oob (es : List KeyValuePair) :
    ∀ buf, (∃ e ∈ es, buf.length < e.line_cnt) → patchAll buf es = none := by
  induction es with
  | nil => intro buf h; obtain ⟨e, he, _⟩ := h; cases he
  | cons e0 es ih =>
    intro buf h
    unfold patchAll
    cases happ : applyEntry buf e0 with
    | none => rfl
    | some buf' =>
      obtain ⟨hne, hlt, hlen⟩ := applyEntry_some buf e0 buf' happ
      obtain ⟨e, he, hoob⟩ := h
      rcases List.mem_cons.mp he with rfl | hmem
      · exact absurd hoob (by omega)
      · exact ih buf' ⟨e, hmem, by omega⟩

/-- C10: save indexes the reread line buffer at `source_line - 1` with no
bounds check: on a loaded instance it can report a written file only when
every entry's source line is at most the number of lines the file holds at
save time, and as soon as some entry's source line exceeds that number the
save panics (unchecked indexing) instead of returning a diagnostic. -/
theorem C10_save_unchecked_indexing (s : Settings) (lines : List Str)
    (hinit : s.is_initialized = true) :
    (∀ out, s.save (.ok (lines.map .ok)) = .written out →
      ∀ e ∈ entriesOf s.sections, e.line_cnt ≤ lines.length) ∧
    ((∃ e ∈ entriesOf s.sections, lines.length < e.line_cnt) →
      s.save (.ok (lines.map .ok)) = .panicked) := by
  constructor
  · intro out hw e he
    simp [Settings.save, hinit, readAll_ok] at hw
    cases hp : patchAll lines (entriesOf s.sections) with
    | none => rw [hp] at hw; exact absurd hw (by simp)
    | some out' => exact (patchAll_some_bounds (entriesOf s.sections) lines out' hp e he).2
  · intro hoob
    simp [Settings.save, hinit, readAll_ok,
      patchAll_none_of_oob (entriesOf s.sections) lines hoob]

/-- Witness for C10: an entry anchored at line 5 of a file that now holds one
line makes save panic. -/
theorem C10_witness :
    Settings.save (Settings.mk "f.ini".data
        [Section.mk "A".data [KeyValuePair.mk "k".data "v".data 5]] SETTINGS_MESSAGES)
      (.ok (["only line".data].map .ok)) = .panicked := by
  exact (C10_save_unchecked_indexing (Settings.mk "f.ini".data
      [Section.mk "A".data [KeyValuePair.mk "k".data "v".data 5]] SETTINGS_MESSAGES)
      ["only line".data] (by decide)).2
    ⟨KeyValuePair.mk "k".data "v".data 5, by decide, by decide⟩

/-- Section::set misses when no entry carries the key. -/
theorem setKV_not_found (key value : Str) (vs : List KeyValuePair)
    (h : ∀ e ∈ vs, e.key ≠ key) : setKV key value vs = none := by
  induction vs with
  | nil => rfl
  | cons e rest ih =>
    unfold setKV
    rw [if_neg (h e (List.mem_cons_self e rest))]
    rw [ih (fun e' he' => h e' (List.mem_cons_of_mem e he'))]
    rfl

/-- Section::set rewrites exactly the first entry carrying the key, keeping
its key and line number and every other entry. -/
theorem setKV_found (key value : Str) (vpre : List KeyValuePair) (e : KeyValuePair)
    (vpost : List KeyValuePair) (hpre : ∀ e' ∈ vpre, e'.key ≠ key) (hk : e.key = key) :
    setKV key value (vpre ++ e :: vpost) =
      some (vpre ++ { e with value := value } :: vpost) := by
  induction vpre with
  | nil => simp [setKV, hk]
  | cons e0 rest ih =>
    simp only [List.cons_append]
    unfold setKV
    rw [if_neg (hpre e0 (List.mem_cons_self e0 rest))]
    rw [ih (fun e' he' => hpre e' (List.mem_cons_of_mem e0 he'))]
    rfl

/-- Settings::get_section_mut misses when no section carries the name. -/
theorem setInSections_no_section (n k v : Str) (secs : List Section)
    (h : ∀ sec ∈ secs, sec.name ≠ n) : setInSections n k v secs = none := by
  induction secs with
  | nil => rfl
  | cons sec rest ih =>
    unfold setInSections
    rw [if_neg (h sec (List.mem_cons_self sec rest))]
    rw [ih (fun sec' hs => h sec' (List.mem_cons_of_mem sec hs))]
    rfl

/-- Settings::set reaches the named section but finds no entry carrying the
key: `Section::set` reports false and nothing is rewritten. -/
theorem setInSections_no_key (n k v : Str) (pre : List Section) (sec : Section)
    (post : List Section) (hpre : ∀ s' ∈ pre, s'.name ≠ n) (hname : sec.name = n)
    (hkeys : ∀ e ∈ sec.values, e.key ≠ k) :
    setInSections n k v (pre ++ sec :: post) = some none := by
  induction pre with
  | nil =>
    unfold setInSections
    simp only [List.nil_append]
    rw [if_pos hname]
    simp [Section.set, setKV_not_found k v sec.values hkeys]
  | cons s0 rest ih =>
    simp only [List.cons_append]
    unfold setInSections
    rw [if_neg (hpre s0 (List.mem_cons_self s0 rest))]
    rw [ih (fun s' hs => hpre s' (List.mem_cons_of_mem s0 hs))]
    rfl

/-- Settings::set reaches the named section and its keyed entry: exactly that
entry's value is rewritten. -/
theorem setInSections_found (n k v : Str) (pre : List Section) (sec : Section)
    (post : List Section) (vpre : List KeyValuePair) (e : KeyValuePair)
    (vpost : List KeyValuePair) (hpre : ∀ s' ∈ pre, s'.name ≠ n)
    (hname : sec.name = n) (hvals : sec.values = vpre ++ e :: vpost)
    (hkpre : ∀ e' ∈ vpre, e'.key ≠ k) (hk : e.key = k) :
    setInSections n k v (pre ++ sec :: post) =
      some (some (pre ++
        { sec with values := vpre ++ { e with value := v } :: vpost } :: post)) := by
  induction pre with
  | nil =>
    unfold setInSections
    simp only [List.nil_append]
    rw [if_pos hname]
    simp [Section.set, hvals, setKV_found k v vpre e vpost hkpre hk]
  | cons s0 rest ih =>
    simp only [List.cons_append]
    unfold setInSections
    rw [if_neg (hpre s0 (List.mem_cons_self s0 rest))]
    rw [ih (fun s' hs => hpre s' (List.mem_cons_of_mem s0 hs))]
    rfl

/-- C7: when the named section and key exist, set rewrites only that entry's
stored text (key and source line preserved; all other entries, sections, the
path and the message table untouched) and reports ok; when the section or the
key is absent it reports SectionNotFound or KeyNotFound and changes nothing -
it never creates a section or a key. -/
theorem C7_set_updates_only_target (s : Settings) (section_name key value : Str) :
    (∀ pre sec post vpre e vpost,
      s.sections = pre ++ sec :: post →
      (∀ s' ∈ pre, s'.name ≠ section_name) →
      sec.name = section_name →
      sec.values = vpre ++ e :: vpost →
      (∀ e' ∈ vpre, e'.key ≠ key) →
      e.key = key →
      Settings.set s section_name key value =
        ({ s with sections := pre ++
            { sec with values := vpre ++ { e with value := value } :: vpost } :: post },
         .ok ())) ∧
    ((∀ sec ∈ s.sections, sec.name ≠ section_name) →
      Settings.set s section_name key value =
        (s, .error (fmtIdx s.messages_table SECTION_NOT_FOUND_MESSAGE_IDX [section_name]))) ∧
    (∀ pre sec post,
      s.sections = pre ++ sec :: post →
      (∀ s' ∈ pre, s'.name ≠ section_name) →
      sec.name = section_name →
      (∀ e ∈ sec.values, e.key ≠ key) →
      Settings.set s section_name key value =
        (s, .error (fmtIdx s.messages_table KEY_NOT_FOUND_MESSAGE_IDX [section_name, key]))) := by
  refine ⟨?_, ?_, ?_⟩
  · intro pre sec post vpre e vpost hs hpre hname hvals hkpre hk
    unfold Settings.set
    rw [hs, setInSections_found section_name key value pre sec post vpre e vpost
      hpre hname hvals hkpre hk]
  · intro h
    unfold Settings.set
    rw [setInSections_no_section section_name key value s.sections h]
  · intro pre sec post hs hpre hname hkeys
    unfold Settings.set
    rw [hs, setInSections_no_key section_name key value pre sec post hpre hname hkeys]

/-- Witness for C7: rewriting key `y` of section `B` touches exactly that
entry. -/
theorem C7_witness :
    Settings.set (Settings.mk "p.ini".data
        [Section.mk "A".data [KeyValuePair.mk "k1".data "v1".data 2],
         Section.mk "B".data [KeyValuePair.mk "x".data "1".data 4,
                              KeyValuePair.mk "y".data "2".data 5]]
        SETTINGS_MESSAGES) "B".data "y".data "9".data =
      (Settings.mk "p.ini".data
        [Section.mk "A".data [KeyValuePair.mk "k1".data "v1".data 2],
         Section.mk "B".data [KeyValuePair.mk "x".data "1".data 4,
                              KeyValuePair.mk "y".data "9".data 5]]
        SETTINGS_MESSAGES, .ok ()) := by
  have h := (C7_set_updates_only_target (Settings.mk "p.ini".data
      [Section.mk "A".data [KeyValuePair.mk "k1".data "v1".data 2],
       Section.mk "B".data [KeyValuePair.mk "x".data "1".data 4,
                            KeyValuePair.mk "y".data "2".data 5]]
      SETTINGS_MESSAGES) "B".data "y".data "9".data).1
    [Section.mk "A".data [KeyValuePair.mk "k1".data "v1".data 2]]
    (Section.mk "B".data [KeyValuePair.mk "x".data "1".data 4,
                          KeyValuePair.mk "y".data "2".data 5]) []
    [KeyValuePair.mk "x".data "1".data 4] (KeyValuePair.mk "y".data "2".data 5) []
    (by decide) (by decide) (by decide) (by decide) (by decide) (by decide)
  exact h.trans (by decide)

/-- The first keyed entry of a section decomposed around it. -/
theorem findKV_append (k : Str) (vpre : List KeyValuePair) (e : KeyValuePair)
    (vpost : List KeyValuePair) (hpre : ∀ e' ∈ vpre, e'.key ≠ k) (hk : e.key = k) :
    findKV k (vpre ++ e :: vpost) = some e := by
  induction vpre with
  | nil => simp [findKV, hk]
  | cons e0 rest ih =>
    simp only [List.cons_append]
    unfold findKV
    rw [if_neg (hpre e0 (List.mem_cons_self e0 rest)),
      ih (fun e' he' => hpre e' (List.mem_cons_of_mem e0 he'))]

/-- Routing a pair into a section that already holds its key produces the
DuplicatedKey diagnostic citing the key, the new line and the line of the
earlier entry. -/
theorem addToSections_dup (msgs : List Str) (path n k v : Str) (cnt : Nat)
    (pre : List Section) (sec : Section) (post : List Section) (e : KeyValuePair)
    (hpre : ∀ s' ∈ pre, s'.name ≠ n) (hname : sec.name = n)
    (hfind : findKV k sec.values = some e) :
    addToSections msgs path n k v cnt (pre ++ sec :: post) =
      .error (fmtIdx msgs DUPLICATED_KEY_MESSAGE_IDX
        [k, natToStr cnt, natToStr e.line_cnt, path]) := by
  induction pre with
  | nil =>
    unfold addToSections
    simp only [List.nil_append]
    rw [if_pos hname]
    simp [Section.add, hfind]
  | cons s0 rest ih =>
    simp only [List.cons_append]
    unfold addToSections
    rw [if_neg (hpre s0 (List.mem_cons_self s0 rest))]
    rw [ih (fun s' hs => hpre s' (List.mem_cons_of_mem s0 hs))]
    rfl

/-- The load loop over a concatenation runs the first part, then the second
from the reached state and shifted line count. -/
theorem loadLinesAux_append (msgs : List Str) (path : Str)
    (xs ys : List (Except Str Str)) :
    ∀ cnt st, loadLinesAux msgs path (xs ++ ys) cnt st =
      match loadLinesAux msgs path xs cnt st with
      | .error e => .error e
      | .ok st' => loadLinesAux msgs path ys (cnt + xs.length) st' := by
  induction xs with
  | nil => intro cnt st; simp [loadLinesAux]
  | cons l ls ih =>
    intro cnt st
    simp only [List.cons_append, loadLinesAux]
    cases hstep : loadStep msgs path st cnt l with
    | error e => rfl
    | ok st1 =>
      dsimp only
      simp only [List.append_eq]
      rw [ih (cnt + 1) st1]
      have h : cnt + 1 + ls.length = cnt + (l :: ls).length := by
        simp [List.length_cons]; omega
      rw [h]

/-- C3: when a key/value line repeats a key already present in the current
section (whatever that section is, the GLOBAL sentinel included), the
keeping `Section::add` refuses the insertion, returning the earlier entry's
line, and the whole load fails with the DuplicatedKey diagnostic citing the
key, the line of the second occurrence and the line of the first. -/
theorem C3_duplicate_key_rejected (s : Settings) (path : Str)
    (pres : List (Except Str Str)) (line : Str) (rest : List (Except Str Str))
    (st : LoadState) (k v : Str) (pre : List Section) (sec : Section)
    (post : List Section) (e : KeyValuePair)
    (hinit : s.is_initialized = false)
    (hpres : loadLinesAux s.messages_table path pres 1 ⟨s.sections, GLOBAL_SECTION⟩ = .ok st)
    (hline : line_type s.messages_table line (pres.length + 1) path = .KeyAndValue k v)
    (hsecs : st.sections = pre ++ sec :: post)
    (hpre : ∀ s' ∈ pre, s'.name ≠ st.current_section)
    (hname : sec.name = st.current_section)
    (hfind : findKV k sec.values = some e) :
    Section.add sec k v (pres.length + 1) = .error e.line_cnt ∧
    (Settings.load s (.ok (pres ++ .ok line :: rest)) path).2 =
      .error (fmtIdx s.messages_table DUPLICATED_KEY_MESSAGE_IDX
        [k, natToStr (pres.length + 1), natToStr e.line_cnt, path]) := by
  constructor
  · simp [Section.add, hfind]
  · have hrun : loadLinesAux s.messages_table path (pres ++ .ok line :: rest) 1
        ⟨s.sections, GLOBAL_SECTION⟩ =
      .error (fmtIdx s.messages_table DUPLICATED_KEY_MESSAGE_IDX
        [k, natToStr (pres.length + 1), natToStr e.line_cnt, path]) := by
      rw [loadLinesAux_append s.messages_table path pres (.ok line :: rest) 1
        ⟨s.sections, GLOBAL_SECTION⟩, hpres]
      have hcnt : 1 + pres.length = pres.length + 1 := by omega
      rw [hcnt]
      simp only [loadLinesAux, loadStep, hline]
      rw [hsecs, addToSections_dup s.messages_table path st.current_section k v
        (pres.length + 1) pre sec post e hpre hname hfind]
      rfl
    simp [Settings.load, hinit, load_private, hrun]

/-- Witness for C3: `key1` defined at line 2 and again at line 5 of a file
mirroring the crate's `duplicated_key.ini` test. -/
theorem C3_witness :
    (Settings.new.load (okFile ["[S]", "key1 = a", "x = 1", "y = 2", "key1 = b"])
        "dup.ini".data).2 =
      .error ("Duplicated key 'key1' at line '5' previously defined at line '2' of settings file: 'dup.ini'".data) := by
  have hfile : okFile ["[S]", "key1 = a", "x = 1", "y = 2", "key1 = b"] =
      .ok ((["[S]", "key1 = a", "x = 1", "y = 2"].map (fun l => Except.ok l.data)) ++
        .ok "key1 = b".data :: []) := by decide
  rw [hfile]
  have h := (C3_duplicate_key_rejected Settings.new "dup.ini".data
    (["[S]", "key1 = a", "x = 1", "y = 2"].map (fun l => Except.ok l.data))
    "key1 = b".data []
    ⟨[Section.mk "S".data [KeyValuePair.mk "key1".data "a".data 2,
        KeyValuePair.mk "x".data "1".data 3, KeyValuePair.mk "y".data "2".data 4]],
      "S".data⟩
    "key1".data "b".data []
    (Section.mk "S".data [KeyValuePair.mk "key1".data "a".data 2,
        KeyValuePair.mk "x".data "1".data 3, KeyValuePair.mk "y".data "2".data 4]) []
    (KeyValuePair.mk "key1".data "a".data 2)
    (by decide) (by decide) (by decide) (by decide) (by decide) (by decide) (by decide)).2
  exact h.trans (by decide)

/-- The find/split of the source keys on the first `=`: splitting a string
whose first component holds no `=` yields that decomposition. -/
theorem splitAtAssign_append (a b : Str) (h : '=' ∉ a) :
    splitAtAssign (a ++ '=' :: b) = some (a, '=' :: b) := by
  induction a with
  | nil => simp [splitAtAssign]
  | cons c rest ih =>
    have hc : c ≠ '=' := fun hh => h (hh ▸ List.mem_cons_self c rest)
    simp only [List.cons_append]
    unfold splitAtAssign
    rw [if_neg hc, ih (fun hm => h (List.mem_cons_of_mem c hm))]

/-- A string without `=` does not split. -/
theorem splitAtAssign_none (t : Str) (h : '=' ∉ t) : splitAtAssign t = none := by
  induction t with
  | nil => rfl
  | cons c rest ih =>
    have hc : c ≠ '=' := fun hh => h (hh ▸ List.mem_cons_self c rest)
    unfold splitAtAssign
    rw [if_neg hc, ih (fun hm => h (List.mem_cons_of_mem c hm))]

/-- C4: on a line that is non-blank after comment stripping and trimming and
is not bracket-shaped (neither starts with `[` nor ends with `]`),
classification splits at the first `=`: the key is the trimmed left part, the
value is the trimmed remainder with every further `=` removed (possibly
empty); an empty trimmed key gives the MissingKey diagnostic, and a line
holding no `=` at all gives the MissingAssignTag diagnostic. -/
theorem C4_assignment_classification (msgs : List Str) (line : Str) (cnt : Nat)
    (path : Str)
    (hsw : startsWithC '[' (trim (truncAtComment line)) = false)
    (hew : endsWithC ']' (trim (truncAtComment line)) = false) :
    (∀ a b, trim (truncAtComment line) = a ++ '=' :: b → '=' ∉ a →
      (trim a = [] →
        line_type msgs line cnt path =
          .BadFormattedLine (fmtIdx msgs MISSING_KEY_MESSAGE_IDX [natToStr cnt, path])) ∧
      (trim a ≠ [] →
        line_type msgs line cnt path =
          .KeyAndValue (trim a) (trim (b.filter (fun c => c != '='))))) ∧
    (trim (truncAtComment line) ≠ [] → '=' ∉ trim (truncAtComment line) →
      line_type msgs line cnt path =
        .BadFormattedLine (fmtIdx msgs MISSING_ASSIGN_TAG_MESSAGE_IDX
          ["=".data, natToStr cnt, path])) := by
  constructor
  · intro a b ht hnotin
    have hsw' : startsWithC '[' (a ++ '=' :: b) = false := ht ▸ hsw
    have hew' : endsWithC ']' (a ++ '=' :: b) = false := ht ▸ hew
    have hsplit := splitAtAssign_append a b hnotin
    have hfil : ('=' :: b).filter (fun c => c != '=') = b.filter (fun c => c != '=') := by
      simp
    constructor
    · intro hka
      simp [line_type, ht, hsw', hew', hsplit, hka]
    · intro hka
      have hka' : (trim a).length ≠ 0 := by
        simpa [List.length_eq_zero] using hka
      simp [line_type, ht, hsw', hew', hsplit, hka', hfil]
  · intro hne hnoeq
    have hlen : (trim (truncAtComment line)).length ≠ 0 := by
      simpa [List.length_eq_zero] using hne
    have hsplit := splitAtAssign_none _ hnoeq
    simp [line_type, hsw, hew, hsplit, hlen]

/-- Witness for C4: `k = v=w # c` classifies as key `k`, value `vw` (second
`=` removed, comment stripped). -/
theorem C4_witness :
    line_type SETTINGS_MESSAGES "k = v=w # c".data 3 "f.ini".data =
      .KeyAndValue "k".data "vw".data := by
  have h := ((C4_assignment_classification SETTINGS_MESSAGES "k = v=w # c".data 3
      "f.ini".data (by decide) (by decide)).1
    "k ".data " v=w".data (by decide) (by decide)).2 (by decide)
  exact h.trans (by decide)

/-- A string without an opening brace holds no placeholder. -/
theorem hasPH_of_no_lbrace (p : Str) (h : '{' ∉ p) : hasPH p = false := by
  induction p with
  | nil => rfl
  | cons c rest ih =>
    have hc : c ≠ '{' := fun hh => h (hh ▸ List.mem_cons_self c rest)
    have hb : beginsPH (c :: rest) = false := by
      cases rest with
      | nil => rfl
      | cons c2 rest2 => simp [beginsPH, hc]
    rw [hasPH, hb, ih (fun hm => h (List.mem_cons_of_mem c hm))]
    rfl

/-- Filling a placeholder-free message changes nothing. -/
theorem fillLTR_no_ph (ps : List Str) : ∀ msg, hasPH msg = false → fillLTR msg ps = msg := by
  cases ps with
  | nil => intro msg _; simp [fillLTR]
  | cons p ps' =>
    intro msg
    induction msg with
    | nil => intro _; simp [fillLTR]
    | cons c rest ih =>
      intro h
      rw [hasPH] at h
      have hb : beginsPH (c :: rest) = false := by
        cases hor : beginsPH (c :: rest) <;> simp [hor] at h ⊢
      have hr : hasPH rest = false := by
        cases hor : hasPH rest <;> simp [hor, hb] at h ⊢
      cases rest with
      | nil => simp [fillLTR]
      | cons c2 rest2 =>
        rw [fillLTR, if_neg (by simp [hb]), ih hr]

/-- A placeholder-free prefix that does not glue a placeholder together with
what follows is transparent to the placeholder search. -/
theorem hasPH_append (A W : Str) (hA : hasPH A = false)
    (hb : ∀ c, A.getLast? = some c → beginsPH (c :: W) = false) :
    hasPH (A ++ W) = hasPH W := by
  induction A with
  | nil => rfl
  | cons c A' ih =>
    rw [hasPH] at hA
    have hbg0 : beginsPH (c :: A') = false := by
      cases hor : beginsPH (c :: A') <;> simp [hor] at hA ⊢
    have hA' : hasPH A' = false := by
      cases hor : hasPH A' <;> simp [hor, hbg0] at hA ⊢
    have hbg : beginsPH (c :: (A' ++ W)) = false := by
      cases A' with
      | nil => simpa using hb c (by simp)
      | cons c2 A'' =>
        simp only [beginsPH, List.cons_append] at hbg0 ⊢
        exact hbg0
    have hb' : ∀ c', A'.getLast? = some c' → beginsPH (c' :: W) = false := by
      intro c' hc'
      apply hb
      cases A' with
      | nil => cases hc'
      | cons c2 A'' => rw [List.getLast?_cons_cons]; exact hc'
    rw [List.cons_append, hasPH, hbg, ih hA' hb']
    rfl

/-- Same transparency for the first-occurrence replacement. -/
theorem replacePH_append (q : Str) (A W : Str) (hA : hasPH A = false)
    (hb : ∀ c, A.getLast? = some c → beginsPH (c :: W) = false) :
    replacePH q (A ++ W) = A ++ replacePH q W := by
  induction A with
  | nil => rfl
  | cons c A' ih =>
    rw [hasPH] at hA
    have hbg0 : beginsPH (c :: A') = false := by
      cases hor : beginsPH (c :: A') <;> simp [hor] at hA ⊢
    have hA' : hasPH A' = false := by
      cases hor : hasPH A' <;> simp [hor, hbg0] at hA ⊢
    have hbg : beginsPH (c :: (A' ++ W)) = false := by
      cases A' with
      | nil => simpa using hb c (by simp)
      | cons c2 A'' =>
        simp only [beginsPH, List.cons_append] at hbg0 ⊢
        exact hbg0
    have hb' : ∀ c', A'.getLast? = some c' → beginsPH (c' :: W) = false := by
      intro c' hc'
      apply hb
      cases A' with
      | nil => cases hc'
      | cons c2 A'' => rw [List.getLast?_cons_cons]; exact hc'
    rw [List.cons_append, replacePH, if_neg (by simp [hbg]), ih hA' hb']
    rfl

/-- The format loop is transparent to a placeholder-free prefix whose last
character is not an opening brace. -/
theorem format_message_aux_append (A : Str) (hA : hasPH A = false)
    (hlast : ∀ c, A.getLast? = some c → c ≠ '{') :
    ∀ (ps : List Str) (W : Str),
      format_message_aux (A ++ W) ps = A ++ format_message_aux W ps := by
  have hb : ∀ (W : Str) (c : Char), A.getLast? = some c → beginsPH (c :: W) = false := by
    intro W c hc
    cases W with
    | nil => rfl
    | cons c2 W' => simp [beginsPH, hlast c hc]
  intro ps
  induction ps with
  | nil => intro W; rfl
  | cons p ps' ih =>
    intro W
    rw [format_message_aux, format_message_aux, hasPH_append A W hA (hb W)]
    cases hw : hasPH W with
    | false => simp
    | true => simp [replacePH_append p A W hA (hb W), ih (replacePH p W)]

/-- A message holding a placeholder splits around its first occurrence. -/
theorem decomposePH : ∀ msg : Str, hasPH msg = true →
    ∃ A B, msg = A ++ '{' :: '}' :: B ∧ hasPH A = false := by
  intro msg
  induction msg with
  | nil => intro h; cases h
  | cons c rest ih =>
    intro h
    rw [hasPH] at h
    by_cases hbg : beginsPH (c :: rest) = true
    · cases rest with
      | nil => cases hbg
      | cons c2 B =>
        have hc : c = '{' ∧ c2 = '}' := by simpa [beginsPH] using hbg
        exact ⟨[], B, by simp [hc.1, hc.2], rfl⟩
    · have hbg' : beginsPH (c :: rest) = false := by
        cases hb2 : beginsPH (c :: rest)
        · rfl
        · exact absurd hb2 hbg
      have hr : hasPH rest = true := by simpa [hbg'] using h
      obtain ⟨A, B, hAB, hA⟩ := ih hr
      refine ⟨c :: A, B, by simp [hAB], ?_⟩
      have hcA : beginsPH (c :: A) = false := by
        cases A with
        | nil => rfl
        | cons a A'' =>
          have hrw : beginsPH (c :: rest) = beginsPH (c :: a :: A'') := by
            rw [hAB]
            simp [beginsPH]
          cases hor : beginsPH (c :: a :: A'') with
          | false => rfl
          | true => exact absurd (hrw.trans hor) hbg
      rw [hasPH, hcA, hA]
      rfl

/-- Filling is transparent to a placeholder-free prefix that does not glue a
placeholder together with what follows. -/
theorem fillLTR_append (A W : Str) (ps : List Str) (hA : hasPH A = false)
    (hb : ∀ c, A.getLast? = some c → beginsPH (c :: W) = false) :
    fillLTR (A ++ W) ps = A ++ fillLTR W ps := by
  cases ps with
  | nil => simp [fillLTR]
  | cons p ps' =>
    induction A with
    | nil => rfl
    | cons c A' ih =>
      rw [hasPH] at hA
      have hbg0 : beginsPH (c :: A') = false := by
        cases hor : beginsPH (c :: A') <;> simp [hor] at hA ⊢
      have hA' : hasPH A' = false := by
        cases hor : hasPH A' <;> simp [hor, hbg0] at hA ⊢
      have hbg : beginsPH (c :: (A' ++ W)) = false := by
        cases A' with
        | nil => simpa using hb c (by simp)
        | cons c2 A'' =>
          simp only [beginsPH, List.cons_append] at hbg0 ⊢
          exact hbg0
      have hb' : ∀ c', A'.getLast? = some c' → beginsPH (c' :: W) = false := by
        intro c' hc'
        apply hb
        cases A' with
        | nil => cases hc'
        | cons c2 A'' => rw [List.getLast?_cons_cons]; exact hc'
      have hstep : fillLTR ((c :: A') ++ W) (p :: ps') =
          c :: fillLTR (A' ++ W) (p :: ps') := by
        cases hAW : A' ++ W with
        | nil =>
          obtain ⟨hA'nil, hWnil⟩ := List.append_eq_nil.mp hAW
          subst hA'nil
          subst hWnil
          simp [fillLTR]
        | cons d rest' =>
          rw [List.cons_append, hAW, fillLTR, if_neg (by rw [← hAW]; simp [hbg])]
      rw [hstep, ih hA' hb']
      simp

/-- The format loop agrees with the left-to-right filling when every
parameter is non-empty and brace-free. -/
theorem format_message_aux_eq_fillLTR (ps : List Str)
    (hps : ∀ p ∈ ps, p ≠ [] ∧ '{' ∉ p ∧ '}' ∉ p) :
    ∀ msg, format_message_aux msg ps = fillLTR msg ps := by
  induction ps with
  | nil => intro msg; simp [format_message_aux, fillLTR]
  | cons p ps' ih =>
    intro msg
    obtain ⟨hpne, hpl, hpr⟩ := hps p (List.mem_cons_self p ps')
    have hps' : ∀ q ∈ ps', q ≠ [] ∧ '{' ∉ q ∧ '}' ∉ q :=
      fun q hq => hps q (List.mem_cons_of_mem p hq)
    cases hph : hasPH msg with
    | false =>
      rw [format_message_aux, hph, fillLTR_no_ph (p :: ps') msg hph]
      simp
    | true =>
      obtain ⟨A, B, hAB, hA⟩ := decomposePH msg hph
      subst hAB
      have hbW : ∀ c, A.getLast? = some c → beginsPH (c :: ('{' :: '}' :: B)) = false := by
        intro c _
        simp [beginsPH]
      have hrepl : replacePH p (A ++ '{' :: '}' :: B) = (A ++ p) ++ B := by
        rw [replacePH_append p A ('{' :: '}' :: B) hA hbW]
        rw [replacePH]
        simp [beginsPH]
      have hAp : hasPH (A ++ p) = false := by
        rw [hasPH_append A p hA]
        · exact hasPH_of_no_lbrace p hpl
        · intro c hc
          cases p with
          | nil => exact absurd rfl hpne
          | cons q p' =>
            have hq : q ≠ '}' := fun hh => hpr (hh ▸ List.mem_cons_self q p')
            simp [beginsPH]
            intro _
            exact hq
      have hlastAp : ∀ c, (A ++ p).getLast? = some c → c ≠ '{' := by
        intro c hc
        rw [List.getLast?_append_of_ne_nil A hpne] at hc
        have hmem : c ∈ p := by
          obtain ⟨hne', heq⟩ := List.mem_getLast?_eq_getLast (by rw [hc]; rfl)
          exact heq ▸ List.getLast_mem hne'
        exact fun hh => hpl (hh ▸ hmem)
      calc format_message_aux (A ++ '{' :: '}' :: B) (p :: ps')
          = format_message_aux (replacePH p (A ++ '{' :: '}' :: B)) ps' := by
            rw [format_message_aux, hph]
            simp
        _ = format_message_aux ((A ++ p) ++ B) ps' := by rw [hrepl]
        _ = (A ++ p) ++ format_message_aux B ps' :=
            format_message_aux_append (A ++ p) hAp hlastAp ps' B
        _ = (A ++ p) ++ fillLTR B ps' := by rw [ih hps' B]
        _ = A ++ fillLTR ('{' :: '}' :: B) (p :: ps') := by
            rw [fillLTR, if_pos (by simp [beginsPH])]
            simp [List.append_assoc]
        _ = fillLTR (A ++ '{' :: '}' :: B) (p :: ps') :=
            (fillLTR_append A ('{' :: '}' :: B) (p :: ps') hA hbW).symm

/-- C9 counterexample: the formatter does not fill the template's
placeholders left to right for every parameter list.  With template
`\x7b\x7d\x7b\x7d` and parameters [`\x7b\x7d`, `z`] the left-to-right filling
of the template's two placeholders would give `\x7b\x7dz`, but the code
rescans the evolving string, so the second parameter lands inside the first
parameter's text and the output is `z\x7b\x7d`.  Moreover with an empty
parameter list and a template still holding a placeholder the source indexes
`params[0]` out of bounds (a panic, `none` in the model) instead of leaving
the placeholder literal. -/
theorem C9_counterexample :
    format_message ['{', '}', '{', '}'] [['{', '}'], ['z']] = some ['z', '{', '}'] ∧
    fillLTR ['{', '}', '{', '}'] [['{', '}'], ['z']] = ['{', '}', 'z'] ∧
    format_message ['{', '}', '{', '}'] [['{', '}'], ['z']] ≠
      some (fillLTR ['{', '}', '{', '}'] [['{', '}'], ['z']]) ∧
    format_message ['x', '{', '}'] [] = none := by
  refine ⟨by decide, ?_, ?_, by decide⟩
  · decide
  · decide

/-- C9 (amended): for every template and every non-empty parameter list whose
parameters are non-empty and hold no brace character, the formatter fills the
`\x7b\x7d` placeholders strictly left to right with the parameters in order,
and when the parameters are fewer than the placeholders the first
`len(params)` placeholders are substituted and the remaining ones stay
literal (this is what `fillLTR` computes). -/
theorem C9_formatter_left_to_right (message : Str) (params : List Str)
    (hne : params ≠ [])
    (hp : ∀ p ∈ params, p ≠ [] ∧ '{' ∉ p ∧ '}' ∉ p) :
    format_message message params = some (fillLTR message params) := by
  unfold format_message
  rw [if_neg (by simp [hne])]
  rw [format_message_aux_eq_fillLTR params hp message]

/-- Witness for the amended C9: one parameter, two placeholders; the first is
substituted, the trailing one stays literal. -/
theorem C9_witness :
    format_message "a {} b {}".data ["X".data] = some "a X b {}".data := by
  have h := C9_formatter_left_to_right "a {} b {}".data ["X".data] (by decide) (by decide)
  exact h.trans (by decide)

/-- A key found in a section survives appending further entries. -/
theorem findKV_append_left (k : Str) (vs l : List KeyValuePair) (e : KeyValuePair)
    (h : findKV k vs = some e) : findKV k (vs ++ l) = some e := by
  induction vs with
  | nil => cases h
  | cons e0 rest ih =>
    rw [List.cons_append]
    simp only [findKV] at h ⊢
    by_cases h0 : e0.key = k
    · rw [if_pos h0] at h ⊢; exact h
    · rw [if_neg h0] at h ⊢; exact ih h

/-- Processing lines that never classify as a section header, while the
current section is the GLOBAL sentinel and the model holds at most the GLOBAL
section without the key of interest, keeps all of that true: such lines can
only land in the GLOBAL section. -/
theorem load_prefix_global (msgs : List Str) (path k : Str) :
    ∀ (ls : List Str) (cnt : Nat) (st st' : LoadState),
      (∀ j < ls.length, ∀ name,
        line_type msgs (ls.getD j []) (cnt + j) path ≠ .SectionLine name) →
      (∀ j < ls.length, ∀ v',
        line_type msgs (ls.getD j []) (cnt + j) path ≠ .KeyAndValue k v') →
      st.current_section = GLOBAL_SECTION →
      (st.sections = [] ∨
        ∃ vs, st.sections = [⟨GLOBAL_SECTION, vs⟩] ∧ ∀ e ∈ vs, e.key ≠ k) →
      loadLinesAux msgs path (ls.map .ok) cnt st = .ok st' →
      st'.current_section = GLOBAL_SECTION ∧
      (st'.sections = [] ∨
        ∃ vs, st'.sections = [⟨GLOBAL_SECTION, vs⟩] ∧ ∀ e ∈ vs, e.key ≠ k) := by
  intro ls
  induction ls with
  | nil =>
    intro cnt st st' _ _ hcur hP hrun
    simp only [List.map_nil, loadLinesAux] at hrun
    cases hrun
    exact ⟨hcur, hP⟩
  | cons l ls ih =>
    intro cnt st st' hno hfirst hcur hP hrun
    simp only [List.map_cons, loadLinesAux] at hrun
    have hno' : ∀ j < ls.length, ∀ name,
        line_type msgs (ls.getD j []) (cnt + 1 + j) path ≠ .SectionLine name := by
      intro j hj name
      have := hno (j + 1) (by simp; omega) name
      have heq : cnt + (j + 1) = cnt + 1 + j := by omega
      simpa [heq] using this
    have hfirst' : ∀ j < ls.length, ∀ v',
        line_type msgs (ls.getD j []) (cnt + 1 + j) path ≠ .KeyAndValue k v' := by
      intro j hj v'
      have := hfirst (j + 1) (by simp; omega) v'
      have heq : cnt + (j + 1) = cnt + 1 + j := by omega
      simpa [heq] using this
    cases hstep : loadStep msgs path st cnt (.ok l) with
    | error e => rw [hstep] at hrun; cases hrun
    | ok st1 =>
      rw [hstep] at hrun
      unfold loadStep at hstep
      dsimp only at hstep
      cases hlt : line_type msgs l cnt path with
      | SectionLine name =>
        exact absurd hlt (by simpa using hno 0 (by simp) name)
      | BadFormattedLine err => rw [hlt] at hstep; cases hstep
      | EmptyLine =>
        rw [hlt] at hstep
        cases hstep
        exact ih (cnt + 1) st st' hno' hfirst' hcur hP hrun
      | KeyAndValue k' v' =>
        rw [hlt] at hstep
        have hk' : k' ≠ k := by
          intro hh
          exact absurd hlt (by simpa [hh] using hfirst 0 (by simp) v')
        rcases hP with hempty | ⟨vs, hsecs, hkeys⟩
        · rw [hempty] at hstep
          simp only [addToSections, Except.map] at hstep
          cases hstep
          dsimp only at hrun
          refine ih (cnt + 1) _ st' hno' hfirst' ?_ (Or.inr ?_) hrun
          · exact hcur
          refine ⟨[⟨k', v', cnt⟩], ?_, ?_⟩
          · dsimp only
            rw [hcur]
          intro e he
          rcases List.mem_cons.mp he with rfl | hmem
          · exact hk'
          · cases hmem
        · rw [hsecs] at hstep
          simp only [addToSections] at hstep
          rw [if_pos hcur.symm] at hstep
          cases hfk : findKV k' vs with
          | some e0 => simp [Section.add, hfk, Except.map] at hstep
          | none =>
            simp only [Section.add, hfk, Except.map] at hstep
            cases hstep
            dsimp only at hrun
            refine ih (cnt + 1) _ st' hno' hfirst' ?_ (Or.inr ?_) hrun
            · exact hcur
            refine ⟨vs ++ [⟨k', v', cnt⟩], rfl, ?_⟩
            intro e he
            rcases List.mem_append.mp he with hmem | hmem
            · exact hkeys e hmem
            · rcases List.mem_cons.mp hmem with rfl | h2
              · exact hk'
              · cases h2

/-- Once the GLOBAL section heads the section list and resolves the key to a
given entry, any further successful load steps preserve that: later pairs are
only ever appended after the existing entries, and new sections are pushed
behind. -/
theorem load_suffix_preserves (msgs : List Str) (path k : Str) (e : KeyValuePair) :
    ∀ (ls : List (Except Str Str)) (cnt : Nat) (st st' : LoadState),
      loadLinesAux msgs path ls cnt st = .ok st' →
      (∃ vs rest, st.sections = ⟨GLOBAL_SECTION, vs⟩ :: rest ∧ findKV k vs = some e) →
      ∃ vs' rest', st'.sections = ⟨GLOBAL_SECTION, vs'⟩ :: rest' ∧ findKV k vs' = some e := by
  intro ls
  induction ls with
  | nil =>
    intro cnt st st' hrun hQ
    simp only [loadLinesAux] at hrun
    cases hrun
    exact hQ
  | cons l ls ih =>
    intro cnt st st' hrun hQ
    simp only [loadLinesAux] at hrun
    cases hstep : loadStep msgs path st cnt l with
    | error e' => rw [hstep] at hrun; cases hrun
    | ok st1 =>
      rw [hstep] at hrun
      refine ih (cnt + 1) st1 st' hrun ?_
      obtain ⟨vs, rest, hsecs, hfind⟩ := hQ
      unfold loadStep at hstep
      cases l with
      | error ioe => cases hstep
      | ok ltext =>
        dsimp only at hstep
        cases hlt : line_type msgs ltext cnt path with
        | SectionLine name =>
          rw [hlt] at hstep
          cases hstep
          exact ⟨vs, rest, hsecs, hfind⟩
        | EmptyLine =>
          rw [hlt] at hstep
          cases hstep
          exact ⟨vs, rest, hsecs, hfind⟩
        | BadFormattedLine err => rw [hlt] at hstep; cases hstep
        | KeyAndValue k' v' =>
          rw [hlt, hsecs] at hstep
          by_cases hcur : (GLOBAL_SECTION : Str) = st.current_section
          · simp only [addToSections] at hstep
            rw [if_pos hcur] at hstep
            cases hfk : findKV k' vs with
            | some e0 => simp [Section.add, hfk, Except.map] at hstep
            | none =>
              simp only [Section.add, hfk, Except.map] at hstep
              cases hstep
              exact ⟨vs ++ [⟨k', v', cnt⟩], rest, rfl,
                findKV_append_left k vs [⟨k', v', cnt⟩] e hfind⟩
          · simp only [addToSections] at hstep
            rw [if_neg hcur] at hstep
            cases haux : addToSections msgs path st.current_section k' v' cnt rest with
            | error e2 => rw [haux] at hstep; cases hstep
            | ok rest2 =>
              rw [haux] at hstep
              simp only [Except.map] at hstep
              cases hstep
              exact ⟨vs, rest2, rfl, hfind⟩

/-- A section none of whose entries carry the key resolves it to nothing. -/
theorem findKV_not_found (k : Str) (vs : List KeyValuePair)
    (h : ∀ e ∈ vs, e.key ≠ k) : findKV k vs = none := by
  induction vs with
  | nil => rfl
  | cons e0 rest ih =>
    unfold findKV
    rw [if_neg (h e0 (List.mem_cons_self e0 rest)),
      ih (fun e' he' => h e' (List.mem_cons_of_mem e0 he'))]

/-- C8: an `[]` header line (empty name after trimming the line) classifies
as a header for the GLOBAL sentinel section, and every key/value line lying
before the first section header is filed under the GLOBAL sentinel, so that
after a successful load its value is retrievable through
`get("GLOBAL", key, default)` (shown for the first line carrying the key). -/
theorem C8_global_sentinel_routing :
    (∀ (msgs : List Str) (line : Str) (cnt : Nat) (path : Str),
      trim (truncAtComment line) = ['[', ']'] →
      line_type msgs line cnt path = .SectionLine GLOBAL_SECTION) ∧
    (∀ (msgs : List Str) (lines : List Str) (path : Str) (st : LoadState)
        (i : Nat) (k v d : Str),
      i < lines.length →
      (∀ j < i, ∀ name,
        line_type msgs (lines.getD j []) (j + 1) path ≠ .SectionLine name) →
      (∀ j < i, ∀ v',
        line_type msgs (lines.getD j []) (j + 1) path ≠ .KeyAndValue k v') →
      line_type msgs (lines.getD i []) (i + 1) path = .KeyAndValue k v →
      loadLinesAux msgs path (lines.map .ok) 1 ⟨[], GLOBAL_SECTION⟩ = .ok st →
      Settings.get ⟨path, st.sections, msgs⟩ strParse GLOBAL_SECTION k d = ⟨v, []⟩) := by
  constructor
  · intro msgs line cnt path h
    unfold line_type
    rw [h]
    rfl
  · intro msgs lines path st i k v d hi hno hfirst hkv hrun
    have hgetD : lines.getD i [] = lines[i] := List.getD_eq_getElem lines [] hi
    have hkv' : line_type msgs lines[i] (i + 1) path = .KeyAndValue k v := hgetD ▸ hkv
    have hlen : (lines.take i).length = i := by simp [List.length_take]; omega
    have hsplit : lines = lines.take i ++ lines[i] :: lines.drop (i + 1) := by
      conv_lhs => rw [← List.take_append_drop i lines]
      rw [List.drop_eq_getElem_cons hi]
    rw [hsplit, List.map_append] at hrun
    rw [loadLinesAux_append msgs path ((lines.take i).map .ok)
      ((lines[i] :: lines.drop (i + 1)).map .ok) 1 ⟨[], GLOBAL_SECTION⟩] at hrun
    cases hpre : loadLinesAux msgs path ((lines.take i).map .ok) 1 ⟨[], GLOBAL_SECTION⟩ with
    | error e => rw [hpre] at hrun; cases hrun
    | ok st1 =>
      rw [hpre] at hrun
      have hnoT : ∀ j < (lines.take i).length, ∀ name,
          line_type msgs ((lines.take i).getD j []) (1 + j) path ≠ .SectionLine name := by
        intro j hj name
        have hj' : j < i := by rw [hlen] at hj; exact hj
        have hjl : j < lines.length := by omega
        have hgd : (lines.take i).getD j [] = lines.getD j [] := by
          rw [List.getD_eq_getElem _ _ (by simp [List.length_take]; omega),
            List.getD_eq_getElem _ _ hjl]
          simp [List.getElem_take]
        rw [hgd, Nat.add_comm 1 j]
        exact hno j hj' name
      have hfirstT : ∀ j < (lines.take i).length, ∀ v',
          line_type msgs ((lines.take i).getD j []) (1 + j) path ≠ .KeyAndValue k v' := by
        intro j hj v'
        have hj' : j < i := by rw [hlen] at hj; exact hj
        have hjl : j < lines.length := by omega
        have hgd : (lines.take i).getD j [] = lines.getD j [] := by
          rw [List.getD_eq_getElem _ _ (by simp [List.length_take]; omega),
            List.getD_eq_getElem _ _ hjl]
          simp [List.getElem_take]
        rw [hgd, Nat.add_comm 1 j]
        exact hfirst j hj' v'
      obtain ⟨hcur1, hP1⟩ := load_prefix_global msgs path k (lines.take i) 1
        ⟨[], GLOBAL_SECTION⟩ st1 hnoT hfirstT rfl (Or.inl rfl) hpre
      simp only [List.map_cons, loadLinesAux] at hrun
      simp only [List.length_map, hlen] at hrun
      rw [Nat.add_comm 1 i] at hrun
      cases hstep : loadStep msgs path st1 (i + 1) (.ok lines[i]) with
      | error e => rw [hstep] at hrun; cases hrun
      | ok st2 =>
        rw [hstep] at hrun
        unfold loadStep at hstep
        dsimp only at hstep
        rw [hkv'] at hstep
        rcases hP1 with hsecs1 | ⟨vs, hsecs1, hkeys1⟩
        · rw [hsecs1] at hstep
          simp only [addToSections, Except.map] at hstep
          cases hstep
          dsimp only at hrun
          obtain ⟨vs', rest', hsecs', hfind'⟩ :=
            load_suffix_preserves msgs path k ⟨k, v, i + 1⟩
              ((lines.drop (i + 1)).map .ok) (i + 1 + 1) _ st hrun
              ⟨[⟨k, v, i + 1⟩], [], by dsimp only; rw [hcur1], by simp [findKV]⟩
          simp [Settings.get, Settings.get_section, findSection, hsecs', Section.get,
            hfind', strParse]
        · rw [hsecs1] at hstep
          simp only [addToSections] at hstep
          rw [if_pos hcur1.symm] at hstep
          have hfk : findKV k vs = none := findKV_not_found k vs hkeys1
          simp only [Section.add, hfk, Except.map] at hstep
          cases hstep
          dsimp only at hrun
          obtain ⟨vs', rest', hsecs', hfind'⟩ :=
            load_suffix_preserves msgs path k ⟨k, v, i + 1⟩
              ((lines.drop (i + 1)).map .ok) (i + 1 + 1) _ st hrun
              ⟨vs ++ [⟨k, v, i + 1⟩], [], rfl,
                findKV_append k vs ⟨k, v, i + 1⟩ [] hkeys1 rfl⟩
          simp [Settings.get, Settings.get_section, findSection, hsecs', Section.get,
            hfind', strParse]

/-- Witness for C8: in the file [`x = 1`, `k = v`] the pair at line 2 lies
before any header and is retrieved through the GLOBAL sentinel; the ` [] `
line classifies as the GLOBAL header. -/
theorem C8_witness :
    line_type SETTINGS_MESSAGES " [] ".data 3 "f.ini".data =
      .SectionLine GLOBAL_SECTION ∧
    Settings.get ⟨"f.ini".data,
        [Section.mk "GLOBAL".data [KeyValuePair.mk "x".data "1".data 1,
          KeyValuePair.mk "k".data "v".data 2]], SETTINGS_MESSAGES⟩
      strParse GLOBAL_SECTION "k".data "d".data = ⟨"v".data, []⟩ := by
  have hcomp : line_type SETTINGS_MESSAGES "x = 1".data 1 "f.ini".data =
      .KeyAndValue "x".data "1".data := by decide
  have hno : ∀ j < 1, ∀ name,
      line_type SETTINGS_MESSAGES (["x = 1".data, "k = v".data].getD j []) (j + 1)
        "f.ini".data ≠ LineType.SectionLine name := by
    intro j hj name hcontr
    have hj0 : j = 0 := by omega
    subst hj0
    rw [show (["x = 1".data, "k = v".data].getD 0 []) = "x = 1".data from rfl,
      hcomp] at hcontr
    cases hcontr
  have hfirst : ∀ j < 1, ∀ v',
      line_type SETTINGS_MESSAGES (["x = 1".data, "k = v".data].getD j []) (j + 1)
        "f.ini".data ≠ LineType.KeyAndValue "k".data v' := by
    intro j hj v' hcontr
    have hj0 : j = 0 := by omega
    subst hj0
    rw [show (["x = 1".data, "k = v".data].getD 0 []) = "x = 1".data from rfl,
      hcomp] at hcontr
    injection hcontr with hk hv
    exact absurd hk (by decide)
  refine ⟨C8_global_sentinel_routing.1 SETTINGS_MESSAGES " [] ".data 3 "f.ini".data
      (by decide), ?_⟩
  have h := C8_global_sentinel_routing.2 SETTINGS_MESSAGES
    ["x = 1".data, "k = v".data] "f.ini".data
    ⟨[Section.mk "GLOBAL".data [KeyValuePair.mk "x".data "1".data 1,
      KeyValuePair.mk "k".data "v".data 2]], "GLOBAL".data⟩
    1 "k".data "v".data "d".data (by decide) hno hfirst (by decide) (by decide)
  exact h.trans (by decide)

/-- A successful routing of one pair adds exactly that entry to the pool of
all entries (up to the order in which sections are listed). -/
theorem addToSections_entries (msgs : List Str) (path n k v : Str) (cnt : Nat) :
    ∀ (secs secs' : List Section),
      addToSections msgs path n k v cnt secs = .ok secs' →
      List.Perm (entriesOf secs') (entriesOf secs ++ [⟨k, v, cnt⟩]) := by
  intro secs
  induction secs with
  | nil =>
    intro secs' h
    simp only [addToSections] at h
    cases h
    simp [entriesOf]
  | cons sec rest ih =>
    intro secs' h
    simp only [addToSections] at h
    by_cases hname : sec.name = n
    · rw [if_pos hname] at h
      cases hfk : findKV k sec.values with
      | some e0 => simp [Section.add, hfk] at h
      | none =>
        simp only [Section.add, hfk] at h
        cases h
        simp only [entriesOf, List.map_cons, List.flatten_cons]
        rw [List.append_assoc, List.append_assoc]
        exact List.Perm.append_left sec.values List.perm_append_comm
    · rw [if_neg hname] at h
      cases haux : addToSections msgs path n k v cnt rest with
      | error e2 => rw [haux] at h; cases h
      | ok rest2 =>
        rw [haux] at h
        simp only [Except.map] at h
        cases h
        simp only [entriesOf, List.map_cons, List.flatten_cons] at ih ⊢
        rw [List.append_assoc]
        exact List.Perm.append_left sec.values (ih rest2 haux)

/-- A successful load collects exactly the entries of the file's key/value
lines (up to the order in which sections are listed). -/
theorem loadLinesAux_entries_perm (msgs : List Str) (path : Str) :
    ∀ (ls : List Str) (cnt : Nat) (st st' : LoadState),
      loadLinesAux msgs path (ls.map .ok) cnt st = .ok st' →
      List.Perm (entriesOf st'.sections)
        (entriesOf st.sections ++ kvEntries msgs path ls cnt) := by
  intro ls
  induction ls with
  | nil =>
    intro cnt st st' hrun
    simp only [List.map_nil, loadLinesAux] at hrun
    cases hrun
    simp [kvEntries]
  | cons l ls ih =>
    intro cnt st st' hrun
    simp only [List.map_cons, loadLinesAux] at hrun
    cases hstep : loadStep msgs path st cnt (.ok l) with
    | error e => rw [hstep] at hrun; cases hrun
    | ok st1 =>
      rw [hstep] at hrun
      unfold loadStep at hstep
      dsimp only at hstep
      cases hlt : line_type msgs l cnt path with
      | SectionLine name =>
        rw [hlt] at hstep
        cases hstep
        have := ih (cnt + 1) _ st' hrun
        simpa [kvEntries, hlt] using this
      | EmptyLine =>
        rw [hlt] at hstep
        cases hstep
        have := ih (cnt + 1) _ st' hrun
        simpa [kvEntries, hlt] using this
      | BadFormattedLine err => rw [hlt] at hstep; cases hstep
      | KeyAndValue k v =>
        rw [hlt] at hstep
        dsimp only at hstep
        cases haux : addToSections msgs path st.current_section k v cnt st.sections with
        | error e2 => rw [haux] at hstep; cases hstep
        | ok secs1 =>
          rw [haux] at hstep
          simp only [Except.map] at hstep
          cases hstep
          dsimp only at hrun
          have h1 := ih (cnt + 1) _ st' hrun
          have h2 := addToSections_entries msgs path st.current_section k v cnt
            st.sections secs1 haux
          rw [kvEntries, hlt]
          refine h1.trans ?_
          have h3 : List.Perm (entriesOf secs1 ++ kvEntries msgs path ls (cnt + 1))
              ((entriesOf st.sections ++ [⟨k, v, cnt⟩]) ++ kvEntries msgs path ls (cnt + 1)) :=
            h2.append_right _
          refine h3.trans ?_
          rw [List.append_assoc]
          exact List.Perm.append_left _ (by simp)

/-- Membership in the line-by-line entry characterization: an entry belongs
to it exactly when some line classifies as that key/value pair at the
entry's recorded line number. -/
theorem kvEntries_mem (msgs : List Str) (path : Str) :
    ∀ (ls : List Str) (cnt : Nat) (e : KeyValuePair),
      e ∈ kvEntries msgs path ls cnt ↔
        ∃ j, j < ls.length ∧ e.line_cnt = cnt + j ∧
          line_type msgs (ls.getD j []) (cnt + j) path = .KeyAndValue e.key e.value := by
  intro ls
  induction ls with
  | nil =>
    intro cnt e
    simp [kvEntries]
  | cons l ls ih =>
    intro cnt e
    rw [kvEntries]
    cases hlt : line_type msgs l cnt path with
    | KeyAndValue k v =>
      constructor
      · intro hmem
        rcases List.mem_cons.mp hmem with rfl | hmem'
        · exact ⟨0, by simp, by simp, by simpa using hlt⟩
        · obtain ⟨j, hj, hcnt, hcl⟩ := (ih (cnt + 1) e).mp hmem'
          refine ⟨j + 1, by simp; omega, by omega, ?_⟩
          have heq : cnt + (j + 1) = cnt + 1 + j := by omega
          simpa [heq] using hcl
      · rintro ⟨j, hj, hcnt, hcl⟩
        cases j with
        | zero =>
          simp only [List.getD_cons_zero, Nat.add_zero] at hcl hcnt
          rw [hlt] at hcl
          injection hcl with hk hv
          have : e = ⟨k, v, cnt⟩ := by
            cases e
            simp_all
          rw [this]
          exact List.mem_cons_self _ _
        | succ j' =>
          refine List.mem_cons_of_mem _ ((ih (cnt + 1) e).mpr ⟨j', by simp at hj; omega, by omega, ?_⟩)
          have heq : cnt + 1 + j' = cnt + (j' + 1) := by omega
          simpa [heq] using hcl
    | SectionLine name =>
      rw [iff_comm]
      constructor
      · rintro ⟨j, hj, hcnt, hcl⟩
        cases j with
        | zero => simp only [List.getD_cons_zero, Nat.add_zero] at hcl; rw [hlt] at hcl; cases hcl
        | succ j' =>
          refine (ih (cnt + 1) e).mpr ⟨j', by simp at hj; omega, by omega, ?_⟩
          have heq : cnt + 1 + j' = cnt + (j' + 1) := by omega
          simpa [heq] using hcl
      · intro hmem
        obtain ⟨j, hj, hcnt, hcl⟩ := (ih (cnt + 1) e).mp hmem
        refine ⟨j + 1, by simp; omega, by omega, ?_⟩
        have heq : cnt + (j + 1) = cnt + 1 + j := by omega
        simpa [heq] using hcl
    | EmptyLine =>
      rw [iff_comm]
      constructor
      · rintro ⟨j, hj, hcnt, hcl⟩
        cases j with
        | zero => simp only [List.getD_cons_zero, Nat.add_zero] at hcl; rw [hlt] at hcl; cases hcl
        | succ j' =>
          refine (ih (cnt + 1) e).mpr ⟨j', by simp at hj; omega, by omega, ?_⟩
          have heq : cnt + 1 + j' = cnt + (j' + 1) := by omega
          simpa [heq] using hcl
      · intro hmem
        obtain ⟨j, hj, hcnt, hcl⟩ := (ih (cnt + 1) e).mp hmem
        refine ⟨j + 1, by simp; omega, by omega, ?_⟩
        have heq : cnt + (j + 1) = cnt + 1 + j := by omega
        simpa [heq] using hcl
    | BadFormattedLine err =>
      rw [iff_comm]
      constructor
      · rintro ⟨j, hj, hcnt, hcl⟩
        cases j with
        | zero => simp only [List.getD_cons_zero, Nat.add_zero] at hcl; rw [hlt] at hcl; cases hcl
        | succ j' =>
          refine (ih (cnt + 1) e).mpr ⟨j', by simp at hj; omega, by omega, ?_⟩
          have heq : cnt + 1 + j' = cnt + (j' + 1) := by omega
          simpa [heq] using hcl
      · intro hmem
        obtain ⟨j, hj, hcnt, hcl⟩ := (ih (cnt + 1) e).mp hmem
        refine ⟨j + 1, by simp; omega, by omega, ?_⟩
        have heq : cnt + (j + 1) = cnt + 1 + j := by omega
        simpa [heq] using hcl

/-- Distinct lines yield entries with distinct line numbers. -/
theorem kvEntries_lines_nodup (msgs : List Str) (path : Str) :
    ∀ (ls : List Str) (cnt : Nat),
      ((kvEntries msgs path ls cnt).map KeyValuePair.line_cnt).Nodup := by
  intro ls
  induction ls with
  | nil => intro cnt; simp [kvEntries]
  | cons l ls ih =>
    intro cnt
    rw [kvEntries]
    cases hlt : line_type msgs l cnt path with
    | KeyAndValue k v =>
      simp only [List.map_cons]
      rw [List.nodup_cons]
      refine ⟨?_, ih (cnt + 1)⟩
      intro hmem
      obtain ⟨e, hmeme, hline⟩ := List.mem_map.mp hmem
      obtain ⟨j, _, hcnt, _⟩ := (kvEntries_mem msgs path ls (cnt + 1) e).mp hmeme
      omega
    | SectionLine name => exact ih (cnt + 1)
    | EmptyLine => exact ih (cnt + 1)
    | BadFormattedLine err => exact ih (cnt + 1)

/-- Full characterization of the patch pass when the entries carry distinct,
in-range line numbers: it succeeds, keeps the buffer length, rewrites the
line anchoring each entry, and leaves every other line untouched. -/
theorem patchAll_char :
    ∀ (es : List KeyValuePair) (buf : List Str),
      (es.map KeyValuePair.line_cnt).Nodup →
      (∀ e ∈ es, e.line_cnt ≠ 0 ∧ e.line_cnt ≤ buf.length) →
      ∃ out, patchAll buf es = some out ∧ out.length = buf.length ∧
        (∀ i < buf.length, (∀ e ∈ es, e.line_cnt - 1 ≠ i) →
          out.getD i [] = buf.getD i []) ∧
        (∀ e ∈ es, out.getD (e.line_cnt - 1) [] =
          patchLine e (buf.getD (e.line_cnt - 1) [])) := by
  intro es
  induction es with
  | nil =>
    intro buf _ _
    exact ⟨buf, rfl, rfl, fun i _ _ => rfl, fun e he => absurd he (by simp)⟩
  | cons e0 es ih =>
    intro buf hnodup hbounds
    obtain ⟨h0ne, h0le⟩ := hbounds e0 (List.mem_cons_self e0 es)
    have hidx : e0.line_cnt - 1 < buf.length := by omega
    have happ : applyEntry buf e0 =
        some (buf.set (e0.line_cnt - 1) (patchLine e0 (buf.getD (e0.line_cnt - 1) []))) := by
      unfold applyEntry
      rw [if_neg h0ne, if_pos hidx]
    set buf0 := buf.set (e0.line_cnt - 1) (patchLine e0 (buf.getD (e0.line_cnt - 1) []))
      with hbuf0
    have hlen0 : buf0.length = buf.length := by simp [hbuf0]
    have hnodup' : (es.map KeyValuePair.line_cnt).Nodup := (List.nodup_cons.mp hnodup).2
    have hnotin : e0.line_cnt ∉ es.map KeyValuePair.line_cnt := (List.nodup_cons.mp hnodup).1
    have hbounds' : ∀ e ∈ es, e.line_cnt ≠ 0 ∧ e.line_cnt ≤ buf0.length := by
      intro e he
      rw [hlen0]
      exact hbounds e (List.mem_cons_of_mem e0 he)
    obtain ⟨out, hpatch, hlen, huntouched, hpatched⟩ := ih buf0 hnodup' hbounds'
    have hdiff : ∀ e ∈ es, e.line_cnt - 1 ≠ e0.line_cnt - 1 := by
      intro e he hcontr
      obtain ⟨hne, _⟩ := hbounds e (List.mem_cons_of_mem e0 he)
      have : e.line_cnt = e0.line_cnt := by omega
      exact hnotin (this ▸ List.mem_map_of_mem KeyValuePair.line_cnt he)
    have hgetD0 : ∀ i < buf.length, i ≠ e0.line_cnt - 1 → buf0.getD i [] = buf.getD i [] := by
      intro i hil hine
      rw [List.getD_eq_getElem _ _ (by rw [hlen0]; exact hil), List.getD_eq_getElem _ _ hil]
      simp [hbuf0, List.getElem_set_ne (Ne.symm hine)]
    refine ⟨out, ?_, by rw [hlen, hlen0], ?_, ?_⟩
    · unfold patchAll
      rw [happ]
      exact hpatch
    · intro i hil hno
      rw [huntouched i (by rw [hlen0]; exact hil) (fun e he => hno e (List.mem_cons_of_mem e0 he))]
      exact hgetD0 i hil (fun hh => hno e0 (List.mem_cons_self e0 es) hh.symm)
    · intro e he
      rcases List.mem_cons.mp he with rfl | hmem
      · rw [huntouched (e.line_cnt - 1) (by rw [hlen0]; exact hidx) (hdiff)]
        rw [List.getD_eq_getElem _ _ (by rw [hlen0]; exact hidx)]
        simp [hbuf0, List.getElem_set_self]
      · rw [hpatched e hmem]
        rw [hgetD0 (e.line_cnt - 1) (by obtain ⟨hne, hle⟩ := hbounds e (List.mem_cons_of_mem e0 hmem); omega) (hdiff e hmem)]

/-- Shape of a successful load: the file opened, the line loop succeeded from
the pristine state, and the resulting settings carry the reached sections and
the path. -/
theorem load_ok_elim (s : Settings) (file : FileData) (path : Str) (s' : Settings)
    (hinit : s.is_initialized = false)
    (h : Settings.load s file path = (s', .ok ())) :
    ∃ lns st, file = .ok lns ∧
      loadLinesAux s.messages_table path lns 1 ⟨s.sections, GLOBAL_SECTION⟩ = .ok st ∧
      s' = { s with sections := st.sections, path := path } := by
  simp only [Settings.load, hinit] at h
  rw [if_neg (by simp [hinit])] at h
  cases hlp : load_private s file path with
  | error e => rw [hlp] at h; simp at h
  | ok s2 =>
    rw [hlp] at h
    have hs2 : s2 = s' := by
      simpa using congrArg Prod.fst h
    unfold load_private at hlp
    cases file with
    | error ioe => dsimp only at hlp; cases hlp
    | ok lns =>
      dsimp only at hlp
      cases hrun : loadLinesAux s.messages_table path lns 1 ⟨s.sections, GLOBAL_SECTION⟩ with
      | error e => rw [hrun] at hlp; cases hlp
      | ok st =>
        rw [hrun] at hlp
        cases hlp
        exact ⟨lns, st, rfl, hrun, hs2.symm⟩

/-- C1 counterexample: loading the well-formed one-line file `a=1` and saving
without any set rewrites the line to the normalized `a = 1`, so the content
is not byte-identical and the original spacing around `=` is not preserved. -/
theorem C1_counterexample :
    (Settings.new.load (okFile ["a=1"]) "f.ini".data).2 = .ok () ∧
    Settings.save (Settings.new.load (okFile ["a=1"]) "f.ini".data).1
      (okFile ["a=1"]) = .written ["a = 1".data] ∧
    ["a = 1".data] ≠ ["a=1".data] := by
  refine ⟨by decide, by decide, by decide⟩

/-- C1 (amended): loading a well-formed file into a fresh Settings and saving
without any intervening set succeeds and writes back a file of the same
number of lines in which every line that anchors a key/value entry is
rewritten in the normalized form `key = value` (with the original text from
the comment marker on, when present, appended after one space), while every
other line (headers, blanks, comment-only lines) is byte-identical to the
original; the content is therefore byte-identical exactly when every entry
line already had that normalized spacing. -/
theorem C1_load_save_normalizes (lines : List Str) (path : Str) (s' : Settings)
    (hpath : path ≠ [])
    (hload : Settings.load Settings.new (.ok (lines.map .ok)) path = (s', .ok ())) :
    ∃ out, s'.save (.ok (lines.map .ok)) = .written out ∧
      out.length = lines.length ∧
      ∀ i < lines.length,
        out.getD i [] =
          match line_type SETTINGS_MESSAGES (lines.getD i []) (i + 1) path with
          | .KeyAndValue k v => patchLine ⟨k, v, i + 1⟩ (lines.getD i [])
          | _ => lines.getD i [] := by
  obtain ⟨lns, st, hfile, hrun0, hs'⟩ :=
    load_ok_elim Settings.new (.ok (lines.map .ok)) path s' (by decide) hload
  have hlns : lns = lines.map .ok := by
    injection hfile with hh
    exact hh.symm
  subst hlns
  subst hs'
  have hrun : loadLinesAux SETTINGS_MESSAGES path (lines.map .ok) 1
      ⟨[], GLOBAL_SECTION⟩ = .ok st := hrun0
  have hperm : List.Perm (entriesOf st.sections)
      (kvEntries SETTINGS_MESSAGES path lines 1) := by
    have h := loadLinesAux_entries_perm SETTINGS_MESSAGES path lines 1
      ⟨[], GLOBAL_SECTION⟩ st hrun
    simpa [entriesOf] using h
  have hmem : ∀ e, e ∈ entriesOf st.sections ↔
      e ∈ kvEntries SETTINGS_MESSAGES path lines 1 := fun e => hperm.mem_iff
  have hnodup : ((entriesOf st.sections).map KeyValuePair.line_cnt).Nodup :=
    (hperm.map KeyValuePair.line_cnt).nodup_iff.mpr
      (kvEntries_lines_nodup SETTINGS_MESSAGES path lines 1)
  have hbounds : ∀ e ∈ entriesOf st.sections,
      e.line_cnt ≠ 0 ∧ e.line_cnt ≤ lines.length := by
    intro e he
    obtain ⟨j, hj, hcnt, _⟩ :=
      (kvEntries_mem SETTINGS_MESSAGES path lines 1 e).mp ((hmem e).mp he)
    omega
  obtain ⟨out, hpatch, hlen, huntouched, hpatched⟩ :=
    patchAll_char (entriesOf st.sections) lines hnodup hbounds
  have hinit' : ({ Settings.new with sections := st.sections, path := path }
      : Settings).is_initialized = true := by
    simp only [Settings.is_initialized, bne_iff_ne]
    simpa [List.length_eq_zero] using hpath
  refine ⟨out, ?_, hlen, ?_⟩
  · unfold Settings.save
    rw [hinit']
    simp only [if_true]
    rw [readAll_ok _ path lines 1]
    dsimp only
    rw [hpatch]
  · intro i hi
    cases hlt : line_type SETTINGS_MESSAGES (lines.getD i []) (i + 1) path with
    | KeyAndValue k v =>
      have hekv : (⟨k, v, i + 1⟩ : KeyValuePair) ∈
          kvEntries SETTINGS_MESSAGES path lines 1 := by
        refine (kvEntries_mem SETTINGS_MESSAGES path lines 1 ⟨k, v, i + 1⟩).mpr
          ⟨i, hi, by dsimp only; omega, ?_⟩
        have heq : 1 + i = i + 1 := by omega
        rw [heq]
        exact hlt
      have := hpatched ⟨k, v, i + 1⟩ ((hmem _).mpr hekv)
      simpa using this
    | SectionLine name =>
      refine huntouched i hi ?_
      intro e he hcontr
      obtain ⟨j, hj, hcnt, hcl⟩ :=
        (kvEntries_mem SETTINGS_MESSAGES path lines 1 e).mp ((hmem e).mp he)
      have hji : j = i := by omega
      subst hji
      rw [show 1 + j = j + 1 from by omega] at hcl
      cases hlt.symm.trans hcl
    | EmptyLine =>
      refine huntouched i hi ?_
      intro e he hcontr
      obtain ⟨j, hj, hcnt, hcl⟩ :=
        (kvEntries_mem SETTINGS_MESSAGES path lines 1 e).mp ((hmem e).mp he)
      have hji : j = i := by omega
      subst hji
      rw [show 1 + j = j + 1 from by omega] at hcl
      cases hlt.symm.trans hcl
    | BadFormattedLine err =>
      refine huntouched i hi ?_
      intro e he hcontr
      obtain ⟨j, hj, hcnt, hcl⟩ :=
        (kvEntries_mem SETTINGS_MESSAGES path lines 1 e).mp ((hmem e).mp he)
      have hji : j = i := by omega
      subst hji
      rw [show 1 + j = j + 1 from by omega] at hcl
      cases hlt.symm.trans hcl

/-- Witness for the amended C1 on a four-line file (entry, comment line,
header, entry with trailing comment): save rewrites the entry lines in
normalized form, keeping the comment verbatim, and leaves the other lines
untouched - here the file was already normalized, so it round-trips
byte-identically. -/
theorem C1_witness :
    ("f.ini".data : Str) ≠ [] ∧
    ∃ out, Settings.save
        (Settings.mk "f.ini".data
          [Section.mk "GLOBAL".data [KeyValuePair.mk "a".data "1".data 1],
           Section.mk "S".data [KeyValuePair.mk "b".data "2".data 4]]
          SETTINGS_MESSAGES)
        (.ok ((["a = 1".data, "# note".data, "[S]".data, "b = 2 # keep".data]).map .ok)) =
        .written out ∧
      out.length = (["a = 1".data, "# note".data, "[S]".data, "b = 2 # keep".data]
        : List Str).length ∧
      ∀ i < (["a = 1".data, "# note".data, "[S]".data, "b = 2 # keep".data]
          : List Str).length,
        out.getD i [] =
          match line_type SETTINGS_MESSAGES
              ((["a = 1".data, "# note".data, "[S]".data, "b = 2 # keep".data]
                : List Str).getD i []) (i + 1) "f.ini".data with
          | .KeyAndValue k v =>
            patchLine ⟨k, v, i + 1⟩
              ((["a = 1".data, "# note".data, "[S]".data, "b = 2 # keep".data]
                : List Str).getD i [])
          | _ =>
            (["a = 1".data, "# note".data, "[S]".data, "b = 2 # keep".data]
              : List Str).getD i [] := by
  refine ⟨by decide, ?_⟩
  exact C1_load_save_normalizes
    ["a = 1".data, "# note".data, "[S]".data, "b = 2 # keep".data] "f.ini".data
    (Settings.mk "f.ini".data
      [Section.mk "GLOBAL".data [KeyValuePair.mk "a".data "1".data 1],
       Section.mk "S".data [KeyValuePair.mk "b".data "2".data 4]]
      SETTINGS_MESSAGES)
    (by decide) (by decide)
